import Mathlib

/-!
Verification of the CART / random-forest implementation in `rf.py`.

Shallow-embedding conventions:
* numpy float values are modelled as rationals (`ℚ`); a value that can also be
  NaN is modelled by `NVal := Option ℚ`, with `none` playing the role of NaN.
  numpy propagates NaN through `+ - * /`, and `0.0 / 0.0 = NaN`.  In `gini`
  every division has a nonnegative numerator bounded by its denominator, so a
  zero denominator always means `0/0`; `ndiv` therefore maps any division by
  zero to `none`.
* Labels are opaque comparable values; they are modelled as `ℚ` as well.
* The feature matrix is a `List (List ℚ)` of rows, the one-hot target matrix a
  `List (List ℚ)` of rows, the label vector a `List ℚ`.
* `numpy.argsort` sorts the rows of the concatenated array by the feature
  column; the order of rows with equal feature values is unspecified there,
  and the model fixes it with a stable insertion sort.
* Python exceptions are modelled by `Option`/dedicated error constructors.
-/

namespace RF

/-- numpy float values appearing in the impurity computation: `some q` is a
finite value, `none` models NaN. -/
abbrev NVal := Option ℚ

/-- NaN-propagating addition. -/
def nadd : NVal → NVal → NVal
  | some a, some b => some (a + b)
  | _, _ => none

/-- NaN-propagating subtraction. -/
def nsub : NVal → NVal → NVal
  | some a, some b => some (a - b)
  | _, _ => none

/-- NaN-propagating multiplication. -/
def nmul : NVal → NVal → NVal
  | some a, some b => some (a * b)
  | _, _ => none

/-- NaN-propagating division; division by zero gives NaN (in `gini` it is
always `0/0`, see the module comment). -/
def ndiv : NVal → NVal → NVal
  | some a, some b => if b = 0 then none else some (a / b)
  | _, _ => none

/-- Python `<` on floats: any comparison involving NaN is `False`. -/
def pyLt : NVal → NVal → Bool
  | some a, some b => decide (a < b)
  | _, _ => false

/-- Ordering of the rows `[feature, one-hot columns]` by the feature value,
as used by `a[a[:, 0].argsort()]`. -/
def pairLe (p q : ℚ × List ℚ) : Prop := p.1 ≤ q.1

instance : DecidableRel pairLe := fun p q => inferInstanceAs (Decidable (p.1 ≤ q.1))

instance : IsTotal (ℚ × List ℚ) pairLe := ⟨fun a b => le_total a.1 b.1⟩

instance : IsTrans (ℚ × List ℚ) pairLe := ⟨fun _ _ _ h h2 => le_trans h h2⟩

/-- `a = np.concatenate((trans, target), axis=1); a = a[a[:, 0].argsort()]`:
each feature value is paired with its one-hot row and the rows are sorted by
the feature value. -/
def sortRows (f : List ℚ) (target : List (List ℚ)) : List (ℚ × List ℚ) :=
  List.insertionSort pairLe (f.zip target)

/-- `sort = a[:, 0]`: the sorted feature column. -/
def sortv (f : List ℚ) (target : List (List ℚ)) : List ℚ :=
  (sortRows f target).map Prod.fst

/-- `split = (sort[0:-1] + sort[1:]) / 2`: candidate thresholds, the midpoints
of consecutive sorted values. -/
def splitsOf (f : List ℚ) (target : List (List ℚ)) : List ℚ :=
  List.zipWith (fun a b => (a + b) / 2) (sortv f target).dropLast (sortv f target).tail

/-- `classes, counts = np.unique(y, return_counts=True)`: the distinct labels
in ascending order. -/
def classesOf (y : List ℚ) : List ℚ :=
  List.insertionSort (· ≤ ·) y.dedup

/-- The count of the `i`-th distinct class, as a float: `counts[i]`. -/
def countQ (y : List ℚ) (i : Nat) : ℚ :=
  ((y.count ((classesOf y).getD i 0) : Nat) : ℚ)

/-- The entry of a sorted row read by `a[:, -n_classes + i]`: column `i`
counted from the last `nC` columns of the one-hot block. -/
def colE (nC i : Nat) (p : ℚ × List ℚ) : ℚ :=
  p.2.getD (p.2.length - nC + i) 0

/-- `left[:, i + 1]` at candidate `j`: the running cumulative sum
`a[:, -n_classes + i].cumsum()[:-1]` evaluated at position `j`, i.e. the sum
of the first `j+1` entries of that column in sorted order. -/
def leftCount (f : List ℚ) (y : List ℚ) (target : List (List ℚ)) (j i : Nat) : ℚ :=
  (((sortRows f target).take (j + 1)).map (colE (classesOf y).length i)).sum

/-- `right[:, i + 1]` at candidate `j`: `counts[i] - left[:, i + 1]`. -/
def rightCount (f : List ℚ) (y : List ℚ) (target : List (List ℚ)) (j i : Nat) : ℚ :=
  countQ y i - leftCount f y target j i

/-- `sum_1 = left[:, 1:].sum(axis=1)` at candidate `j`. -/
def sumLeft (f : List ℚ) (y : List ℚ) (target : List (List ℚ)) (j : Nat) : ℚ :=
  ∑ i in Finset.range (classesOf y).length, leftCount f y target j i

/-- `sum_2 = right[:, 1:].sum(axis=1)` at candidate `j`. -/
def sumRight (f : List ℚ) (y : List ℚ) (target : List (List ℚ)) (j : Nat) : ℚ :=
  ∑ i in Finset.range (classesOf y).length, rightCount f y target j i

/-- `s = sum(counts)`. -/
def sTotal (y : List ℚ) : ℚ :=
  ∑ i in Finset.range (classesOf y).length, countQ y i

/-- The loop `for i in range(n_classes): gini_t -= (cnt[i] / tot) ** 2`
starting from `1.0`, with NaN propagation. -/
def giniHalf (cnt : Nat → ℚ) (tot : ℚ) (nC : Nat) : NVal :=
  (List.range nC).foldl
    (fun acc i => nsub acc (nmul (ndiv (some (cnt i)) (some tot)) (ndiv (some (cnt i)) (some tot))))
    (some 1)

/-- `gini_t1` at candidate `j`. -/
def giniT1 (f : List ℚ) (y : List ℚ) (target : List (List ℚ)) (j : Nat) : NVal :=
  giniHalf (leftCount f y target j) (sumLeft f y target j) (classesOf y).length

/-- `gini_t2` at candidate `j`. -/
def giniT2 (f : List ℚ) (y : List ℚ) (target : List (List ℚ)) (j : Nat) : NVal :=
  giniHalf (rightCount f y target j) (sumRight f y target j) (classesOf y).length

/-- `g = gini_t1 * sum_1 / s + gini_t2 * sum_2 / s` at candidate `j`. -/
def gScore (f : List ℚ) (y : List ℚ) (target : List (List ℚ)) (j : Nat) : NVal :=
  nadd (ndiv (nmul (giniT1 f y target j) (some (sumLeft f y target j))) (some (sTotal y)))
    (ndiv (nmul (giniT2 f y target j) (some (sumRight f y target j))) (some (sTotal y)))

/-- `g = list(g)`: the scores of all `N - 1` candidates. -/
def gList (f : List ℚ) (y : List ℚ) (target : List (List ℚ)) : List NVal :=
  (List.range (splitsOf f target).length).map (gScore f y target)

/-- Python `min` over a nonempty list of floats: keep the current value unless
the next element compares strictly smaller (NaN comparisons are `False`). -/
def pyMinFold (g0 : NVal) (rest : List NVal) : NVal :=
  rest.foldl (fun acc z => if pyLt z acc then z else acc) g0

/-- `TreeNode.gini`: returns `(split_value, min_g)`; `none` models the
`ValueError` of `min([])` when there are fewer than two rows.
`split_value = split[g.index(min_g)]` picks the first candidate whose score
equals the minimum. -/
def gini (f : List ℚ) (y : List ℚ) (target : List (List ℚ)) : Option (ℚ × NVal) :=
  match gList f y target with
  | [] => none
  | g0 :: rest =>
    let m := pyMinFold g0 rest
    let j := (g0 :: rest).findIdx (fun z => decide (z = m))
    some ((splitsOf f target).getD j 0, m)

/-- List comprehension over fallible computations: any exception aborts. -/
def optMap (f : α → Option β) : List α → Option (List β)
  | [] => some []
  | a :: as =>
    match f a, optMap f as with
    | some b, some bs => some (b :: bs)
    | _, _ => none

/-- `Counter(y).most_common()[0]`: the `(label, count)` pair with the largest
count.  `Counter` enumerates labels in first-insertion order and
`most_common` sorts stably by descending count, so ties go to the label whose
first occurrence in `y` is earliest; folding over `y` itself with a
strictly-greater test realises exactly that.  `none` models the `IndexError`
on an empty list. -/
def mostCommonOpt (y : List ℚ) : Option (ℚ × Nat) :=
  match y with
  | [] => none
  | a :: rest =>
    some ((a :: rest).foldl
      (fun acc c => if acc.2 < (a :: rest).count c then (c, (a :: rest).count c) else acc)
      (a, (a :: rest).count a))

/-- The mutable `TreeNode` record after training:
`(left_child, right_child, split_feature, split_value, split_gini, label)`. -/
inductive PyNode where
  | mk : Option PyNode → Option PyNode → Option Nat → Option ℚ → NVal → Option ℚ → PyNode

instance : Inhabited PyNode := ⟨.mk none none none none (some 1) none⟩

def PyNode.left_child : PyNode → Option PyNode
  | .mk l _ _ _ _ _ => l

def PyNode.right_child : PyNode → Option PyNode
  | .mk _ r _ _ _ _ => r

def PyNode.split_feature : PyNode → Option Nat
  | .mk _ _ sf _ _ _ => sf

def PyNode.split_value : PyNode → Option ℚ
  | .mk _ _ _ sv _ _ => sv

def PyNode.split_gini : PyNode → NVal
  | .mk _ _ _ _ g _ => g

def PyNode.label : PyNode → Option ℚ
  | .mk _ _ _ _ _ lab => lab

/-- `TreeNode.is_leaf`: `label is not None`. -/
def isLeaf (n : PyNode) : Bool := n.label.isSome

/-- A node that took the leaf exit: only `label` is set, `split_gini` keeps
its inherited value. -/
def leafNode (g : NVal) (lab : ℚ) : PyNode := .mk none none none none g (some lab)

/-- A node that committed a split: feature, threshold, achieved impurity and
both children are set, `label` stays `None`. -/
def internalNode (feat : Nat) (v : ℚ) (g : NVal) (l r : PyNode) : PyNode :=
  .mk (some l) (some r) (some feat) (some v) g none

/-- `TreeNode.split_feature_value`: runs `gini` on every sampled column,
`min(value_g, key=lambda t: t[1])`, and recovers the winning feature through
`value_g.index(result)` (first tuple equal to the minimum).  `index` is the
list of sampled feature indices (`sample(range(n), self.n_features)`),
supplied here by the caller.  `none` models an exception (empty sample or a
`gini` failure). -/
def splitFeatureValue (index : List Nat) (x : List (List ℚ)) (y : List ℚ)
    (target : List (List ℚ)) : Option (Nat × ℚ × NVal) :=
  match optMap (fun i => gini (x.map (fun row => row.getD i 0)) y target) index with
  | none => none
  | some value_g =>
    match value_g with
    | [] => none
    | v0 :: rest =>
      let result := rest.foldl (fun acc t => if pyLt t.2 acc.2 then t else acc) v0
      let j := (v0 :: rest).findIdx (fun t => decide (t = result))
      some (index.getD j 0, result.1, result.2)

/-- Boolean-mask row selection `arr[mask]` (one mask entry per row). -/
def applyMask : List Bool → List α → List α
  | true :: bs, a :: as => a :: applyMask bs as
  | false :: bs, _ :: as => applyMask bs as
  | _, _ => []

/-- numpy boolean indexing `arr[mask]` checks that the mask length matches the
number of rows; a mismatch raises (`none`). -/
def maskIdx (m : List Bool) (l : List α) : Option (List α) :=
  if m.length = l.length then some (applyMask m l) else none

/-- Stop condition B: `self.split_gini - split_gini < 0.01`; comparisons with
NaN are `False` in Python. -/
def condB (selfG splitG : NVal) : Bool :=
  match selfG, splitG with
  | some a, some b => decide (a - b < 1 / 100)
  | _, _ => false

/-- Result of a recursive `attempt_split` call: `out` is exhausted fuel of the
model (never reached from sufficient fuel, see the termination theorem),
`err` a Python exception, `ok` the trained node. -/
inductive SplitRes where
  | out : SplitRes
  | err : SplitRes
  | ok : PyNode → SplitRes

/-- `TreeNode.attempt_split`, with explicit fuel for the recursion and an
oracle `samp` giving, for each recursion path (`false` = left child,
`true` = right child), the feature indices drawn by
`sample(range(n), self.n_features)` at that node.  `selfG` is the node's
inherited `split_gini` (1 at the root).

Mirrors `rf.py` lines 79-110: majority/stop condition A, split search, stop
condition B, partitioning by `x[:, feature] <= value` / `> value`, stop
condition C, then recursion into both children with the achieved impurity as
their inherited floor. -/
def attemptSplit : Nat → (List Bool → List Nat) → List Bool → NVal →
    List (List ℚ) → List ℚ → List (List ℚ) → SplitRes
  | 0, _, _, _, _, _, _ => .out
  | fuel + 1, samp, path, selfG, x, y, target =>
    match mostCommonOpt y with
    | none => .err
    | some (label, count) =>
      if y.toFinset.card = 1 ∨ 9 * y.length < 10 * count then .ok (leafNode selfG label)
      else
        match splitFeatureValue (samp path) x y target with
        | none => .err
        | some (feature, value, splitG) =>
          if condB selfG splitG then .ok (leafNode selfG label)
          else
            let mask1 := x.map (fun row => decide (row.getD feature 0 ≤ value))
            let mask2 := x.map (fun row => decide (value < row.getD feature 0))
            match maskIdx mask1 y, maskIdx mask2 y, maskIdx mask1 target, maskIdx mask2 target with
            | some y1, some y2, some t1, some t2 =>
              if y2 = [] ∨ y1 = [] then .ok (leafNode selfG label)
              else
                match attemptSplit fuel samp (path ++ [false]) splitG (applyMask mask1 x) y1 t1 with
                | .out => .out
                | .err => .err
                | .ok lt =>
                  match attemptSplit fuel samp (path ++ [true]) splitG (applyMask mask2 x) y2 t2 with
                  | .out => .out
                  | .err => .err
                  | .ok rt => .ok (internalNode feature value splitG lt rt)
            | _, _, _, _ => .err

/-- `TreeNode.sort`: walk down the tree for one instance.  At a leaf return
the label; otherwise compare `x[self.split_feature] <= self.split_value` and
descend.  `none` models the exception raised on an untrained node
(`split_feature`/`split_value`/needed child still `None`). -/
def sortNode : PyNode → List ℚ → Option ℚ
  | .mk _ _ _ _ _ (some c), _ => some c
  | .mk l r (some sf) (some sv) _ none, row =>
    if row.getD sf 0 ≤ sv then
      match l with
      | some t => sortNode t row
      | none => none
    else
      match r with
      | some t => sortNode t row
      | none => none
  | .mk _ _ none _ _ none, _ => none
  | .mk _ _ (some _) none _ none, _ => none

/-- All nodes of a trained tree (the node itself and its subtrees). -/
def descendants : PyNode → List PyNode
  | .mk (some l) (some r) sf sv g lab =>
    .mk (some l) (some r) sf sv g lab :: (descendants l ++ descendants r)
  | .mk (some l) none sf sv g lab => .mk (some l) none sf sv g lab :: descendants l
  | .mk none (some r) sf sv g lab => .mk none (some r) sf sv g lab :: descendants r
  | .mk none none sf sv g lab => [.mk none none sf sv g lab]

/-- The labels carried by the leaves of a tree. -/
def leafLabels : PyNode → List ℚ
  | .mk (some l) (some r) _ _ _ lab => lab.toList ++ (leafLabels l ++ leafLabels r)
  | .mk (some l) none _ _ _ lab => lab.toList ++ leafLabels l
  | .mk none (some r) _ _ _ lab => lab.toList ++ leafLabels r
  | .mk none none _ _ _ lab => lab.toList

/-- The structural invariant of a fully trained node: either a leaf (label
set, no children) or an internal node (no label, two trained children). -/
def trainedInv : PyNode → Bool
  | .mk none none _ _ _ (some _) => true
  | .mk (some l) (some r) _ _ _ none => trainedInv l && trainedInv r
  | _ => false

/-- Like `trainedInv`, additionally recording that internal nodes carry a
split feature and threshold (which `attempt_split` always sets). -/
def wellTrained : PyNode → Bool
  | .mk none none _ _ _ (some _) => true
  | .mk (some l) (some r) (some _) (some _) _ none => wellTrained l && wellTrained r
  | _ => false

/-- `ClassifierTree.classify`: apply `sort` to every row of a matrix. -/
def classify (t : PyNode) (rows : List (List ℚ)) : Option (List ℚ) :=
  optMap (sortNode t) rows

/-- `RandomForest.predict`: every tree classifies all rows, then for each row
`Counter(pred[:, i]).most_common()[0][0]` — the vote with the highest count,
ties to the vote first encountered in tree-storage order.  With no trees,
`pred.shape[1]` raises (`none`). -/
def predict (trees : List PyNode) (rows : List (List ℚ)) : Option (List ℚ) :=
  match optMap (fun t => classify t rows) trees with
  | none => none
  | some preds =>
    match preds with
    | [] => none
    | _ :: _ =>
      some ((List.range rows.length).map (fun i =>
        match mostCommonOpt (preds.map (fun p => p.getD i 0)) with
        | some mc => mc.1
        | none => 0))

/-- One-hot encoding used by `ClassifierTree.train`:
`OneHotEncoder(categories='auto')` derives one column per distinct label of
this `y`, in ascending order. -/
def oneHotRow (cs : List ℚ) (v : ℚ) : List ℚ :=
  cs.map (fun c => if v = c then 1 else 0)

/-- The one-hot target matrix `encoder.fit_transform(y.reshape(-1,1)).toarray()`. -/
def oneHot (y : List ℚ) : List (List ℚ) :=
  y.map (oneHotRow (classesOf y))

/-- `ClassifierTree.train`: build the one-hot target from this call's labels
and grow the tree from the root, whose inherited `split_gini` is 1. -/
def trainTree (fuel : Nat) (samp : List Bool → List Nat) (x : List (List ℚ))
    (y : List ℚ) : SplitRes :=
  attemptSplit fuel samp [] (some 1) x y (oneHot y)

/-- `sklearn.utils.resample(x, y)` (bootstrap sampling): raises a
`ValueError` when the two inputs have different numbers of rows (`none`);
otherwise returns the rows at the drawn indices `idxs` (the random draw is
supplied by the caller as an oracle). -/
def resample (idxs : List Nat) (x : List (List ℚ)) (y : List ℚ) :
    Option (List (List ℚ) × List ℚ) :=
  if x.length = y.length then
    some (idxs.map (fun i => x.getD i []), idxs.map (fun i => y.getD i 0))
  else none

/-- `RandomForest.build_tree`: bootstrap-resample the training set, then train
one tree on the resample. -/
def buildTree (idxs : List Nat) (fuel : Nat) (samp : List Bool → List Nat)
    (x : List (List ℚ)) (y : List ℚ) : SplitRes :=
  match resample idxs x y with
  | none => .err
  | some (x2, y2) => trainTree fuel samp x2 y2

/-- Result of `RandomForest.fit`.  `entryError` stands for a validation error
raised at the entry point before any tree is constructed — the source
performs no such validation, so `fit` never produces it.  `trainError n`
is an exception surfacing from the worker pool after the `n` tree objects
were already constructed (lines 153-155 run before `pool.map`). -/
inductive FitRes where
  | entryError : String → FitRes
  | trainError : Nat → FitRes
  | out : FitRes
  | ok : List PyNode → FitRes

/-- `RandomForest.fit`: mirrors lines 150-160.  No input validation; the
`n` `ClassifierTree` objects are appended first, then `pool.map` trains each
on an independent bootstrap resample (`oracle k` is tree `k`'s draw, `samp k`
its per-node feature-subspace oracle).  Any worker exception aborts the whole
`fit`. -/
def fitForest (n : Nat) (oracle : Nat → List Nat) (samp : Nat → List Bool → List Nat)
    (fuel : Nat) (x : List (List ℚ)) (y : List ℚ) : FitRes :=
  (((List.range n).map (fun k => buildTree (oracle k) fuel (samp k) x y)).foldr
    (fun r acc =>
      match r with
      | .err => .trainError n
      | .out => .out
      | .ok t =>
        match acc with
        | .ok ts => .ok (t :: ts)
        | e => e)
    (FitRes.ok []))

/-- Modelled from the spec: the per-class left count of candidate `j`,
described as the prefix sum of the *corresponding* one-hot target column —
column `i` for class `i` — over the sorted rows.  Used to compare the
source's negative column indexing against the spec's wording. -/
def specLeftCount (f : List ℚ) (tg : List (List ℚ)) (j i : Nat) : ℚ :=
  (((sortRows f tg).take (j + 1)).map (fun p => p.2.getD i 0)).sum

/-- The count of the most frequent label of `y` (0 for an empty list). -/
def majCount (y : List ℚ) : Nat :=
  (y.map (fun a => y.count a)).foldr max 0

/-- The index of the first occurrence of `c` in a list (its length if `c`
does not occur). -/
def pos (c : ℚ) : List ℚ → Nat
  | [] => 0
  | a :: as => if a = c then 0 else pos c as + 1

/-- numpy `cumsum`: the running cumulative sum of a vector. -/
def cumsum : List ℚ → List ℚ
  | [] => []
  | a :: as => a :: (cumsum as).map (fun b => a + b)

/-- The column `a[:, -n_classes + i]` of the sorted array, as a vector (the
input of the `cumsum` on line 47). -/
def colList (f y : List ℚ) (tg : List (List ℚ)) (i : Nat) : List ℚ :=
  (sortRows f tg).map (colE (classesOf y).length i)

/-! ### Generic list lemmas -/

theorem optMap_some {f : α → Option β} :
    ∀ {l : List α} {r : List β}, optMap f l = some r →
      r.length = l.length ∧ ∀ k, k < l.length → ∀ d d2, f (l.getD k d) = some (r.getD k d2) := by
  intro l
  induction l with
  | nil => intro r h; simp [optMap] at h; subst h; simp
  | cons a as ih =>
    intro r h
    simp only [optMap] at h
    cases hfa : f a with
    | none => rw [hfa] at h; exact absurd h (by simp)
    | some b =>
      rw [hfa] at h
      cases hrest : optMap f as with
      | none => rw [hrest] at h; exact absurd h (by simp)
      | some bs =>
        rw [hrest] at h
        simp only [Option.some.injEq] at h
        subst h
        obtain ⟨hl, hk⟩ := ih hrest
        refine ⟨by simp [hl], ?_⟩
        intro k hklt d d2
        cases k with
        | zero => simpa using hfa
        | succ k =>
          simp only [List.getD_cons_succ]
          exact hk k (by simpa using hklt) d d2

theorem optMap_of_forall_some {f : α → Option β} :
    ∀ {l : List α}, (∀ a ∈ l, ∃ b, f a = some b) → ∃ r, optMap f l = some r := by
  intro l
  induction l with
  | nil => intro _; exact ⟨[], rfl⟩
  | cons a as ih =>
    intro h
    obtain ⟨b, hb⟩ := h a (by simp)
    obtain ⟨r, hr⟩ := ih (fun a ha => h a (by simp [ha]))
    exact ⟨b :: r, by simp [optMap, hb, hr]⟩

theorem applyMask_map_eq_filter (p : α → Bool) :
    ∀ l : List α, applyMask (l.map p) l = l.filter p := by
  intro l
  induction l with
  | nil => rfl
  | cons a as ih =>
    cases hpa : p a <;> simp [applyMask, List.filter_cons, hpa, ih]

theorem applyMask_subset : ∀ (m : List Bool) (l : List α), ∀ a ∈ applyMask m l, a ∈ l := by
  intro m
  induction m with
  | nil => intro l a ha; cases l <;> simp [applyMask] at ha
  | cons b bs ih =>
    intro l a ha
    cases l with
    | nil => cases b <;> simp [applyMask] at ha
    | cons c cs =>
      cases b with
      | true =>
        simp only [applyMask, List.mem_cons] at ha
        rcases ha with rfl | ha
        · simp
        · simp [ih cs a ha]
      | false =>
        simp only [applyMask] at ha
        simp [ih cs a ha]

theorem applyMask_ne_nil_true : ∀ (m : List Bool) (l : List α),
    applyMask m l ≠ [] → true ∈ m := by
  intro m
  induction m with
  | nil => intro l h; cases l <;> simp [applyMask] at h
  | cons b bs ih =>
    intro l h
    cases l with
    | nil => cases b <;> simp [applyMask] at h
    | cons c cs =>
      cases b with
      | true => simp
      | false => exact List.mem_cons_of_mem _ (ih cs (by simpa [applyMask] using h))

theorem length_filter_lt_of_exists (p : α → Bool) (l : List α) (a : α) (ha : a ∈ l)
    (hpa : p a = false) : (l.filter p).length < l.length := by
  induction l with
  | nil => cases ha
  | cons c cs ih =>
    rcases List.mem_cons.1 ha with rfl | ha2
    · simp only [List.filter_cons, hpa]
      exact Nat.lt_succ_of_le (List.length_filter_le p cs)
    · cases hpc : p c <;> simp only [List.filter_cons, hpc] <;> simp only [List.length_cons]
      · exact Nat.lt_succ_of_lt (ih ha2)
      · exact Nat.succ_lt_succ (ih ha2)

theorem length_filter_add_length_filter_not (p : α → Bool) (l : List α) :
    (l.filter p).length + (l.filter (fun a => !p a)).length = l.length := by
  induction l with
  | nil => rfl
  | cons a as ih => cases hpa : p a <;> simp [List.filter_cons, hpa] <;> omega

theorem getD_map (f : α → β) (l : List α) (k : Nat) (hk : k < l.length) (d : β) (d2 : α) :
    (l.map f).getD k d = f (l.getD k d2) := by
  rw [List.getD_eq_getElem _ _ (by simpa using hk), List.getD_eq_getElem _ _ hk,
    List.getElem_map]

theorem getD_range_map (f : Nat → β) (n k : Nat) (hk : k < n) (d : β) :
    ((List.range n).map f).getD k d = f k := by
  rw [List.getD_eq_getElem _ _ (by simpa using hk)]
  simp

theorem cumsum_length : ∀ l : List ℚ, (cumsum l).length = l.length := by
  intro l
  induction l with
  | nil => rfl
  | cons a as ih => simp [cumsum, ih]

theorem cumsum_getD : ∀ (l : List ℚ) (j : Nat), j < l.length →
    (cumsum l).getD j 0 = (l.take (j + 1)).sum := by
  intro l
  induction l with
  | nil => intro j hj; simp at hj
  | cons a as ih =>
    intro j hj
    cases j with
    | zero => simp [cumsum]
    | succ j =>
      have hj2 : j < as.length := by simpa using hj
      simp only [cumsum, List.getD_cons_succ]
      rw [getD_map _ _ j (by rw [cumsum_length]; exact hj2) 0 0, ih j hj2,
        List.take_succ_cons, List.sum_cons]

theorem dropLast_getD (l : List ℚ) (j : Nat) (hj : j + 1 < l.length) :
    l.dropLast.getD j 0 = l.getD j 0 := by
  have h1 : j < l.dropLast.length := by
    rw [List.length_dropLast]
    omega
  rw [List.getD_eq_getElem _ _ h1, List.getD_eq_getElem _ _ (by omega), List.getElem_dropLast]

theorem sum_map_eq_sum_range (f : α → ℚ) (d : α) :
    ∀ l : List α, (l.map f).sum = ∑ i in Finset.range l.length, f (l.getD i d) := by
  intro l
  induction l with
  | nil => simp
  | cons a as ih =>
    simp only [List.map_cons, List.sum_cons, List.length_cons, ih, Finset.sum_range_succ']
    simp [List.getD_cons_succ, List.getD_cons_zero, add_comm]

theorem sum_indicator_eq_count (v : ℚ) :
    ∀ cs : List ℚ, ((cs.map (fun c => if v = c then (1 : ℚ) else 0)).sum) = cs.count v := by
  intro cs
  induction cs with
  | nil => simp
  | cons c cs ih =>
    by_cases hvc : v = c
    · subst hvc; simp [List.count_cons, ih, add_comm]
    · simp [List.count_cons, hvc, Ne.symm hvc, ih]

theorem sum_map_split (f g : α → ℚ) :
    ∀ l : List α, (l.map (fun a => f a + g a)).sum = (l.map f).sum + (l.map g).sum := by
  intro l
  induction l with
  | nil => simp
  | cons a as ih => simp [ih]; ring

theorem sum_count_over_distinct (d : List ℚ) (hd : d.Nodup) :
    ∀ y : List ℚ, (∀ c ∈ y, c ∈ d) →
      (d.map (fun c => ((y.count c : Nat) : ℚ))).sum = y.length := by
  intro y
  induction y with
  | nil => simp
  | cons a as ih =>
    intro hsub
    have hmem : a ∈ d := hsub a (by simp)
    have h1 : ∀ c : ℚ, (((a :: as).count c : Nat) : ℚ) =
        ((as.count c : Nat) : ℚ) + (if a = c then (1 : ℚ) else 0) := by
      intro c
      by_cases h : c = a
      · subst h; simp [List.count_cons]
      · simp [List.count_cons, h, Ne.symm h]
    calc (d.map fun c => (((a :: as).count c : Nat) : ℚ)).sum
        = (d.map fun c => ((as.count c : Nat) : ℚ) + (if a = c then (1 : ℚ) else 0)).sum := by
          simp only [h1]
      _ = (d.map fun c => ((as.count c : Nat) : ℚ)).sum +
            (d.map fun c => if a = c then (1 : ℚ) else 0).sum := sum_map_split _ _ d
      _ = as.length + 1 := by
          rw [ih (fun c hc => hsub c (by simp [hc])), sum_indicator_eq_count]
          rw [List.count_eq_one_of_mem hd hmem]
          simp
      _ = ((a :: as).length : ℚ) := by simp [add_comm]

/-! ### Python `min` / `list.index` lemmas -/

theorem pyMinFold_mem : ∀ (rest : List NVal) (g0 : NVal),
    pyMinFold g0 rest = g0 ∨ pyMinFold g0 rest ∈ rest := by
  intro rest
  induction rest with
  | nil => intro g0; left; rfl
  | cons z rest ih =>
    intro g0
    have hstep : pyMinFold g0 (z :: rest) = pyMinFold (if pyLt z g0 then z else g0) rest := rfl
    rcases ih (if pyLt z g0 then z else g0) with h | h
    · rw [hstep, h]
      by_cases hz : pyLt z g0
      · right; simp [hz]
      · left; simp [hz]
    · right; rw [hstep]; exact List.mem_cons_of_mem _ h

theorem pyMinFold_min : ∀ (rest : List NVal) (g0 : NVal) (q0 : ℚ), g0 = some q0 →
    (∀ z ∈ rest, ∃ qz : ℚ, z = some qz) →
    ∃ q : ℚ, pyMinFold g0 rest = some q ∧ q ≤ q0 ∧
      ∀ z ∈ rest, ∀ qz : ℚ, z = some qz → q ≤ qz := by
  intro rest
  induction rest with
  | nil =>
    intro g0 q0 hg0 _
    exact ⟨q0, by simp [pyMinFold, hg0], le_refl q0, by simp⟩
  | cons z rest ih =>
    intro g0 q0 hg0 hall
    obtain ⟨qz, hqz⟩ := hall z (by simp)
    subst hg0; subst hqz
    simp only [pyMinFold, List.foldl_cons]
    by_cases hlt : qz < q0
    · have hstep : pyLt (some qz) (some q0) = true := by simp [pyLt, hlt]
      obtain ⟨q, hq, hle, hmin⟩ := ih (some qz) qz rfl (fun w hw => hall w (by simp [hw]))
      refine ⟨q, ?_, le_trans hle (le_of_lt hlt), ?_⟩
      · simpa [pyMinFold, hstep] using hq
      · intro w hw qw hqw
        rcases List.mem_cons.1 hw with rfl | hw2
        · exact le_trans hle (le_of_eq (by injection hqw))
        · exact hmin w hw2 qw hqw
    · have hstep : pyLt (some qz) (some q0) = false := by simp [pyLt, hlt]
      obtain ⟨q, hq, hle, hmin⟩ := ih (some q0) q0 rfl (fun w hw => hall w (by simp [hw]))
      refine ⟨q, ?_, hle, ?_⟩
      · simpa [pyMinFold, hstep] using hq
      · intro w hw qw hqw
        rcases List.mem_cons.1 hw with rfl | hw2
        · have h2 : qz = qw := by injection hqw
          exact le_trans hle (h2 ▸ not_lt.1 hlt)
        · exact hmin w hw2 qw hqw

theorem findIdx_first [DecidableEq α] (d : α) :
    ∀ (l : List α) (m : α), m ∈ l →
      l.findIdx (fun z => decide (z = m)) < l.length ∧
      l.getD (l.findIdx (fun z => decide (z = m))) d = m ∧
      ∀ k < l.findIdx (fun z => decide (z = m)), l.getD k d ≠ m := by
  intro l
  induction l with
  | nil => intro m h; cases h
  | cons a as ih =>
    intro m hm
    by_cases ham : a = m
    · subst ham
      simp [List.findIdx_cons]
    · have hmas : m ∈ as := by
        rcases List.mem_cons.1 hm with h | h
        · exact absurd h.symm ham
        · exact h
      obtain ⟨h1, h2, h3⟩ := ih m hmas
      have hfi : (a :: as).findIdx (fun z => decide (z = m)) =
          as.findIdx (fun z => decide (z = m)) + 1 := by
        simp [List.findIdx_cons, ham]
      refine ⟨by rw [hfi]; simp only [List.length_cons]; omega, by simpa [hfi] using h2, ?_⟩
      intro k hk
      cases k with
      | zero => simpa using ham
      | succ k =>
        rw [hfi] at hk
        simpa using h3 k (by omega)

/-! ### `giniHalf` evaluation -/

theorem foldl_nsub_none (step : Nat → NVal) :
    ∀ l : List Nat, l.foldl (fun acc i => nsub acc (step i)) none = none := by
  intro l
  induction l with
  | nil => rfl
  | cons a as ih => simpa [nsub] using ih

theorem giniHalf_eval (cnt : Nat → ℚ) (tot : ℚ) (htot : tot ≠ 0) :
    ∀ nC : Nat, giniHalf cnt tot nC = some (1 - ∑ i in Finset.range nC, (cnt i / tot) ^ 2) := by
  intro nC
  induction nC with
  | zero => simp [giniHalf]
  | succ n ih =>
    unfold giniHalf at ih ⊢
    rw [List.range_succ, List.foldl_append, ih]
    simp only [List.foldl_cons, List.foldl_nil, ndiv, nmul, nsub, if_neg htot]
    rw [Finset.sum_range_succ]
    congr 1
    ring

theorem giniHalf_nan (cnt : Nat → ℚ) (nC : Nat) (hnC : 1 ≤ nC) (hc0 : cnt 0 = 0) :
    giniHalf cnt 0 nC = none := by
  obtain ⟨m, rfl⟩ : ∃ m, nC = m + 1 := ⟨nC - 1, by omega⟩
  unfold giniHalf
  rw [List.range_succ_eq_map]
  simp only [List.foldl_cons, ndiv, hc0, if_pos rfl, nmul, nsub]
  rw [List.foldl_map]
  exact foldl_nsub_none _ _

/-! ### Facts about `gini` under a correctly aligned one-hot target -/

theorem classes_nodup (y : List ℚ) : (classesOf y).Nodup :=
  ((List.perm_insertionSort _ y.dedup).nodup_iff).2 y.nodup_dedup

theorem mem_classes {y : List ℚ} {c : ℚ} : c ∈ classesOf y ↔ c ∈ y := by
  rw [classesOf, (List.perm_insertionSort _ y.dedup).mem_iff, List.mem_dedup]

theorem oneHotRow_length (cs : List ℚ) (v : ℚ) : (oneHotRow cs v).length = cs.length := by
  simp [oneHotRow]

theorem length_sortRows (f : List ℚ) (tg : List (List ℚ)) (h : tg.length = f.length) :
    (sortRows f tg).length = f.length := by
  rw [sortRows, (List.perm_insertionSort _ _).length_eq, List.length_zip, h, Nat.min_self]

theorem length_sortv (f : List ℚ) (tg : List (List ℚ)) (h : tg.length = f.length) :
    (sortv f tg).length = f.length := by
  rw [sortv, List.length_map, length_sortRows f tg h]

theorem length_splitsOf (f : List ℚ) (tg : List (List ℚ)) (h : tg.length = f.length) :
    (splitsOf f tg).length = f.length - 1 := by
  rw [splitsOf, List.length_zipWith, List.length_dropLast, List.length_tail,
    length_sortv f tg h, Nat.min_self]

theorem sortRows_row_aligned (f y : List ℚ) :
    ∀ p ∈ sortRows f (oneHot y), ∃ v ∈ y, p.2 = oneHotRow (classesOf y) v := by
  intro p hp
  have hzip : p ∈ f.zip (oneHot y) := (List.perm_insertionSort _ _).mem_iff.1 hp
  have h2 : p.2 ∈ oneHot y := by
    obtain ⟨a, b, hab⟩ : ∃ a b, p = (a, b) := ⟨p.1, p.2, rfl⟩
    subst hab
    exact (List.of_mem_zip hzip).2
  rw [oneHot] at h2
  obtain ⟨v, hv, hrow⟩ := List.mem_map.1 h2
  exact ⟨v, hv, hrow.symm⟩

theorem colE_aligned (y : List ℚ) (v : ℚ) (i : Nat) (hi : i < (classesOf y).length)
    (p : ℚ × List ℚ) (hp : p.2 = oneHotRow (classesOf y) v) :
    colE (classesOf y).length i p = if v = (classesOf y).getD i 0 then 1 else 0 := by
  rw [colE, hp, oneHotRow_length, Nat.sub_self, Nat.zero_add, oneHotRow]
  rw [List.getD_eq_getElem _ _ (by simpa using hi), List.getElem_map]
  rw [List.getD_eq_getElem _ _ hi]

theorem row_sum_one (y : List ℚ) (v : ℚ) (hv : v ∈ y) (p : ℚ × List ℚ)
    (hp : p.2 = oneHotRow (classesOf y) v) :
    ∑ i in Finset.range (classesOf y).length, colE (classesOf y).length i p = 1 := by
  have h1 : ∀ i ∈ Finset.range (classesOf y).length,
      colE (classesOf y).length i p = if v = (classesOf y).getD i 0 then 1 else 0 := by
    intro i hi
    exact colE_aligned y v i (Finset.mem_range.1 hi) p hp
  rw [Finset.sum_congr rfl h1]
  rw [← sum_map_eq_sum_range (fun c => if v = c then (1 : ℚ) else 0) 0 (classesOf y)]
  rw [sum_indicator_eq_count]
  rw [List.count_eq_one_of_mem (classes_nodup y) (mem_classes.2 hv)]
  simp

theorem sum_cols_eq_length (nC : Nat) :
    ∀ l : List (ℚ × List ℚ), (∀ p ∈ l, ∑ i in Finset.range nC, colE nC i p = 1) →
      ∑ i in Finset.range nC, ((l.map (colE nC i)).sum) = l.length := by
  intro l
  induction l with
  | nil => simp
  | cons p l ih =>
    intro h
    simp only [List.map_cons, List.sum_cons]
    rw [Finset.sum_add_distrib, h p (by simp), ih (fun q hq => h q (by simp [hq]))]
    simp [add_comm]

theorem sumLeft_aligned (f y : List ℚ) (hlen : f.length = y.length) (j : Nat)
    (hj : j + 1 ≤ f.length) : sumLeft f y (oneHot y) j = (j + 1 : ℚ) := by
  have hlt : (oneHot y).length = f.length := by simp [oneHot, hlen]
  have htake : ∀ p ∈ (sortRows f (oneHot y)).take (j + 1),
      ∑ i in Finset.range (classesOf y).length, colE (classesOf y).length i p = 1 := by
    intro p hp
    obtain ⟨v, hv, hrow⟩ := sortRows_row_aligned f y p (List.mem_of_mem_take hp)
    exact row_sum_one y v hv p hrow
  have h1 : sumLeft f y (oneHot y) j =
      ∑ i in Finset.range (classesOf y).length,
        ((((sortRows f (oneHot y)).take (j + 1)).map (colE (classesOf y).length i)).sum) := by
    rw [sumLeft]
    refine Finset.sum_congr rfl (fun i _ => ?_)
    rw [leftCount]
  rw [h1, sum_cols_eq_length _ _ htake, List.length_take, length_sortRows f _ hlt]
  rw [Nat.min_eq_left hj]
  push_cast
  ring

theorem sTotal_eq_length (y : List ℚ) : sTotal y = (y.length : ℚ) := by
  rw [sTotal]
  have h1 : ∀ i ∈ Finset.range (classesOf y).length,
      countQ y i = ((y.count ((classesOf y).getD i 0) : Nat) : ℚ) := fun i _ => rfl
  rw [Finset.sum_congr rfl h1]
  rw [← sum_map_eq_sum_range (fun c => ((y.count c : Nat) : ℚ)) 0 (classesOf y)]
  exact sum_count_over_distinct (classesOf y) (classes_nodup y) y (fun c hc => mem_classes.2 hc)

theorem sumRight_eq (f y : List ℚ) (tg : List (List ℚ)) (j : Nat) :
    sumRight f y tg j = sTotal y - sumLeft f y tg j := by
  rw [sumRight, sumLeft, sTotal, ← Finset.sum_sub_distrib]
  exact Finset.sum_congr rfl (fun i _ => rfl)

theorem sumRight_aligned (f y : List ℚ) (hlen : f.length = y.length) (j : Nat)
    (hj : j + 1 ≤ f.length) :
    sumRight f y (oneHot y) j = (f.length : ℚ) - (j + 1 : ℚ) := by
  rw [sumRight_eq, sTotal_eq_length, sumLeft_aligned f y hlen j hj, hlen]

theorem gScore_eval (f y : List ℚ) (tg : List (List ℚ)) (j : Nat)
    (hs1 : sumLeft f y tg j ≠ 0) (hs2 : sumRight f y tg j ≠ 0) (hst : sTotal y ≠ 0) :
    gScore f y tg j = some
      ((1 - ∑ i in Finset.range (classesOf y).length,
          (leftCount f y tg j i / sumLeft f y tg j) ^ 2) * sumLeft f y tg j / sTotal y +
        (1 - ∑ i in Finset.range (classesOf y).length,
          (rightCount f y tg j i / sumRight f y tg j) ^ 2) * sumRight f y tg j / sTotal y) := by
  rw [gScore, giniT1, giniT2, giniHalf_eval _ _ hs1, giniHalf_eval _ _ hs2]
  simp only [nmul, ndiv, if_neg hst, nadd]

theorem mem_snd_sortRows (f : List ℚ) (tg : List (List ℚ)) (p : ℚ × List ℚ)
    (hp : p ∈ sortRows f tg) : p.2 ∈ tg := by
  have hzip : p ∈ f.zip tg := (List.perm_insertionSort _ _).mem_iff.1 hp
  obtain ⟨a, b, hab⟩ : ∃ a b, p = (a, b) := ⟨p.1, p.2, rfl⟩
  subst hab
  exact (List.of_mem_zip hzip).2

theorem getD_nonneg (l : List ℚ) (h : ∀ q ∈ l, 0 ≤ q) (k : Nat) : 0 ≤ l.getD k 0 := by
  by_cases hk : k < l.length
  · rw [List.getD_eq_getElem _ _ hk]
    exact h _ (List.getElem_mem hk)
  · rw [List.getD_eq_default _ _ (by omega)]

theorem leftCount_nonneg (f y : List ℚ) (tg : List (List ℚ))
    (h01 : ∀ row ∈ tg, ∀ q ∈ row, 0 ≤ q) (j i : Nat) : 0 ≤ leftCount f y tg j i := by
  rw [leftCount]
  refine List.sum_nonneg ?_
  intro q hq
  obtain ⟨p, hp, hpq⟩ := List.mem_map.1 hq
  have hrow := mem_snd_sortRows f tg p (List.mem_of_mem_take hp)
  rw [← hpq, colE]
  exact getD_nonneg p.2 (h01 p.2 hrow) _

/-- When a candidate's left total is zero (possible only when the one-hot
matrix carries classes absent from `y`), `0/0` turns that candidate's score
into NaN. -/
theorem gScore_nan_of_sumLeft_zero (f y : List ℚ) (tg : List (List ℚ)) (j : Nat)
    (h01 : ∀ row ∈ tg, ∀ q ∈ row, 0 ≤ q) (hzero : sumLeft f y tg j = 0)
    (hnC : 1 ≤ (classesOf y).length) : gScore f y tg j = none := by
  have hc0 : leftCount f y tg j 0 = 0 := by
    have hall := (Finset.sum_eq_zero_iff_of_nonneg
      (fun i _ => leftCount_nonneg f y tg h01 j i)).1 hzero
    exact hall 0 (Finset.mem_range.2 (by omega))
  have h1 : giniT1 f y tg j = none := by
    rw [giniT1, hzero]
    exact giniHalf_nan _ _ hnC hc0
  rw [gScore, h1]
  simp [nmul, ndiv, nadd]

theorem gList_getD (f y : List ℚ) (tg : List (List ℚ)) (k : Nat)
    (hk : k < (splitsOf f tg).length) : (gList f y tg).getD k none = gScore f y tg k :=
  getD_range_map _ _ _ hk _

theorem gini_eq_of_ne_nil (f y : List ℚ) (tg : List (List ℚ))
    (hne : gList f y tg ≠ []) :
    ∃ g0 rest, gList f y tg = g0 :: rest ∧
      gini f y tg = some ((splitsOf f tg).getD
        ((g0 :: rest).findIdx (fun z => decide (z = pyMinFold g0 rest))) 0, pyMinFold g0 rest) := by
  match hg : gList f y tg with
  | [] => exact absurd hg hne
  | g0 :: rest =>
    refine ⟨g0, rest, rfl, ?_⟩
    rw [gini, hg]

theorem sortv_sorted (f : List ℚ) (tg : List (List ℚ)) :
    List.Sorted (· ≤ ·) (sortv f tg) := by
  have h := List.sorted_insertionSort pairLe (f.zip tg)
  exact List.Pairwise.map Prod.fst (fun a b hab => hab) h

theorem sortv_perm (f : List ℚ) (tg : List (List ℚ)) (h : f.length ≤ tg.length) :
    (sortv f tg).Perm f := by
  have h1 : (sortRows f tg).Perm (f.zip tg) := List.perm_insertionSort _ _
  have h2 := h1.map Prod.fst
  rwa [List.map_fst_zip _ _ h] at h2

theorem splitsOf_getD (f : List ℚ) (tg : List (List ℚ)) (k : Nat)
    (hk : k < (splitsOf f tg).length) :
    (splitsOf f tg).getD k 0 =
      ((sortv f tg).getD k 0 + (sortv f tg).getD (k + 1) 0) / 2 := by
  have hk1 : k < (sortv f tg).dropLast.length := by
    rw [splitsOf, List.length_zipWith] at hk
    omega
  have hk2 : k < (sortv f tg).tail.length := by
    rw [splitsOf, List.length_zipWith] at hk
    omega
  have hk3 : k < (sortv f tg).length := by
    rw [List.length_dropLast] at hk1
    omega
  have hk4 : k + 1 < (sortv f tg).length := by
    rw [List.length_tail] at hk2
    omega
  rw [List.getD_eq_getElem _ _ hk, List.getD_eq_getElem _ _ hk3, List.getD_eq_getElem _ _ hk4]
  simp only [splitsOf, List.getElem_zipWith, List.getElem_dropLast, List.getElem_tail]

theorem sortv_getD_mono (f : List ℚ) (tg : List (List ℚ)) (a b : Nat) (hab : a ≤ b)
    (hb : b < (sortv f tg).length) :
    (sortv f tg).getD a 0 ≤ (sortv f tg).getD b 0 := by
  have ha : a < (sortv f tg).length := by omega
  rw [List.getD_eq_getElem _ _ ha, List.getD_eq_getElem _ _ hb]
  rcases Nat.lt_or_ge a b with h | h
  · exact (List.pairwise_iff_getElem.1 (sortv_sorted f tg)) a b ha hb h
  · have hba : a = b := by omega
    subst hba
    exact le_refl _

theorem splitsOf_getD_mono (f : List ℚ) (tg : List (List ℚ)) (a b : Nat) (hab : a ≤ b)
    (hb : b < (splitsOf f tg).length) :
    (splitsOf f tg).getD a 0 ≤ (splitsOf f tg).getD b 0 := by
  have hlen : b + 1 < (sortv f tg).length := by
    rw [splitsOf, List.length_zipWith, List.length_dropLast, List.length_tail] at hb
    omega
  rw [splitsOf_getD f tg a (by omega), splitsOf_getD f tg b hb]
  have h1 := sortv_getD_mono f tg a b hab (by omega)
  have h2 := sortv_getD_mono f tg (a + 1) (b + 1) (by omega) hlen
  linarith

theorem aligned_candidate (f y : List ℚ) (hlen : f.length = y.length) (j : Nat)
    (hj : j < f.length - 1) :
    sumLeft f y (oneHot y) j = (j + 1 : ℚ) ∧
      sumRight f y (oneHot y) j = (f.length : ℚ) - (j + 1 : ℚ) ∧
      sumLeft f y (oneHot y) j ≠ 0 ∧ sumRight f y (oneHot y) j ≠ 0 ∧ sTotal y ≠ 0 := by
  have hN : 2 ≤ f.length := by omega
  have hj1 : j + 1 ≤ f.length := by omega
  have h1 := sumLeft_aligned f y hlen j hj1
  have h2 := sumRight_aligned f y hlen j hj1
  refine ⟨h1, h2, ?_, ?_, ?_⟩
  · rw [h1]
    positivity
  · rw [h2]
    have : (j + 2 : ℚ) ≤ (f.length : ℚ) := by
      have : (j + 2 : Nat) ≤ f.length := by omega
      exact_mod_cast this
    intro hcon
    nlinarith
  · rw [sTotal_eq_length, ← hlen]
    intro hcon
    have : (f.length : ℚ) = 0 := hcon
    have : f.length = 0 := by exact_mod_cast this
    omega

theorem gList_mem_some (f y : List ℚ) (hlen : f.length = y.length) (z : NVal)
    (hz : z ∈ gList f y (oneHot y)) : ∃ q : ℚ, z = some q := by
  have hlt : (oneHot y).length = f.length := by simp [oneHot, hlen]
  obtain ⟨k, hk, hzk⟩ := List.mem_map.1 hz
  have hk2 : k < (splitsOf f (oneHot y)).length := by simpa using List.mem_range.1 hk
  have hk3 : k < f.length - 1 := by rwa [length_splitsOf f _ hlt] at hk2
  obtain ⟨_, _, hs1, hs2, hst⟩ := aligned_candidate f y hlen k hk3
  rw [← hzk, gScore_eval f y (oneHot y) k hs1 hs2 hst]
  exact ⟨_, rfl⟩

/-- C10: with a one-hot target whose columns are exactly the distinct labels
of `y` (so `n_classes` equals the one-hot width) and at least two rows, the
left total of candidate `j` is `j+1`, the right total is `N-1-j`, and the
score of every candidate is a finite value: no division by zero occurs. -/
theorem gini_totals_aligned (f y : List ℚ) (tg : List (List ℚ))
    (hlen : f.length = y.length) (htg : tg = oneHot y) (j : Nat)
    (hj : j < f.length - 1) :
    sumLeft f y tg j = (j + 1 : ℚ) ∧
      sumRight f y tg j = (f.length : ℚ) - 1 - (j : ℚ) ∧
      sumLeft f y tg j ≠ 0 ∧ sumRight f y tg j ≠ 0 ∧
      (gScore f y tg j).isSome := by
  subst htg
  obtain ⟨h1, h2, hs1, hs2, hst⟩ := aligned_candidate f y hlen j hj
  refine ⟨h1, by rw [h2]; ring, hs1, hs2, ?_⟩
  rw [gScore_eval f y (oneHot y) j hs1 hs2 hst]
  rfl

/-- C1: on an aligned one-hot target with `N ≥ 2` rows, `gini` returns a
midpoint of two consecutive values of the sorted feature column together
with its score; that score is finite and less than or equal to the score of
every candidate, and among the minimizers the first candidate in sorted
order (hence the lowest threshold) is returned. -/
theorem gini_returns_min_midpoint (f y : List ℚ) (tg : List (List ℚ))
    (hlen : f.length = y.length) (htg : tg = oneHot y) (hN : 2 ≤ f.length) :
    ∃ j q, gini f y tg = some ((splitsOf f tg).getD j 0, some q) ∧
      j < (splitsOf f tg).length ∧
      (splitsOf f tg).getD j 0 =
        ((sortv f tg).getD j 0 + (sortv f tg).getD (j + 1) 0) / 2 ∧
      List.Sorted (· ≤ ·) (sortv f tg) ∧ (sortv f tg).Perm f ∧
      gScore f y tg j = some q ∧
      (∀ k, k < (splitsOf f tg).length → ∃ qk, gScore f y tg k = some qk ∧ q ≤ qk) ∧
      (∀ k, k < j → gScore f y tg k ≠ some q) ∧
      (∀ k, k < (splitsOf f tg).length → gScore f y tg k = some q →
        (splitsOf f tg).getD j 0 ≤ (splitsOf f tg).getD k 0) := by
  subst htg
  have hlt : (oneHot y).length = f.length := by simp [oneHot, hlen]
  have hsplen : (splitsOf f (oneHot y)).length = f.length - 1 := length_splitsOf f _ hlt
  have hglen : (gList f y (oneHot y)).length = (splitsOf f (oneHot y)).length := by
    simp [gList]
  have hgne : gList f y (oneHot y) ≠ [] := by
    intro hcon
    rw [hcon] at hglen
    simp at hglen
    omega
  obtain ⟨g0, rest, hg, hgini⟩ := gini_eq_of_ne_nil f y (oneHot y) hgne
  obtain ⟨q0, hq0⟩ := gList_mem_some f y hlen g0 (by rw [hg]; simp)
  have hrest : ∀ z ∈ rest, ∃ qz : ℚ, z = some qz := by
    intro z hz
    exact gList_mem_some f y hlen z (by rw [hg]; simp [hz])
  obtain ⟨q, hmin, hle0, hminall⟩ := pyMinFold_min rest g0 q0 hq0 hrest
  have hm_mem : pyMinFold g0 rest ∈ g0 :: rest := by
    rcases pyMinFold_mem rest g0 with h | h
    · rw [h]; simp
    · exact List.mem_cons_of_mem _ h
  obtain ⟨hjlt, hjget, hjfirst⟩ := findIdx_first (none : NVal) (g0 :: rest) _ hm_mem
  set j := (g0 :: rest).findIdx (fun z => decide (z = pyMinFold g0 rest)) with hjdef
  have hjlt2 : j < (splitsOf f (oneHot y)).length := by
    rw [← hglen, hg]
    exact hjlt
  have hgetD : ∀ k, k < (splitsOf f (oneHot y)).length →
      (g0 :: rest).getD k none = gScore f y (oneHot y) k := by
    intro k hk
    rw [← hg]
    exact gList_getD f y (oneHot y) k hk
  refine ⟨j, q, ?_, hjlt2, splitsOf_getD f _ j hjlt2, sortv_sorted f _,
    sortv_perm f _ (le_of_eq hlt.symm), ?_, ?_, ?_, ?_⟩
  · rw [hgini, hmin]
  · rw [← hgetD j hjlt2, hjget, hmin]
  · intro k hk
    have hklen : k < (g0 :: rest).length := by
      rw [hg] at hglen
      omega
    have hz : (g0 :: rest).getD k none ∈ g0 :: rest := by
      rw [List.getD_eq_getElem _ _ hklen]
      exact List.getElem_mem hklen
    rcases List.mem_cons.1 hz with h | h
    · refine ⟨q0, ?_, hle0⟩
      rw [← hgetD k hk, h, hq0]
    · obtain ⟨qk, hqk⟩ := hrest _ h
      refine ⟨qk, ?_, hminall _ h qk hqk⟩
      rw [← hgetD k hk]
      exact hqk
  · intro k hkj
    have hk : k < (splitsOf f (oneHot y)).length := by omega
    intro hcon
    apply hjfirst k hkj
    rw [hgetD k hk, hcon, hmin]
  · intro k hk hscore
    have hjk : j ≤ k := by
      by_contra hcon
      push_neg at hcon
      apply hjfirst k hcon
      rw [hgetD k hk, hscore, hmin]
    exact splitsOf_getD_mono f _ j k hjk hk

theorem oneHotRow_inj (cs : List ℚ) (v c : ℚ) (hv : v ∈ cs)
    (h : oneHotRow cs v = oneHotRow cs c) : v = c := by
  obtain ⟨k, hk, hcsk⟩ := List.getElem_of_mem hv
  have h1 : (oneHotRow cs v).getD k 0 = (oneHotRow cs c).getD k 0 := by rw [h]
  rw [oneHotRow, oneHotRow, getD_map _ _ k hk 0 0, getD_map _ _ k hk 0 0] at h1
  have hval : cs.getD k 0 = v := by
    rw [List.getD_eq_getElem _ _ hk]
    exact hcsk
  rw [hval, if_pos rfl] at h1
  by_cases hcv : c = v
  · exact hcv.symm
  · rw [if_neg hcv] at h1
    norm_num at h1

theorem sum_colE_eq_count (y : List ℚ) (i : Nat) (hi : i < (classesOf y).length) :
    ∀ l : List (ℚ × List ℚ), (∀ p ∈ l, ∃ v ∈ y, p.2 = oneHotRow (classesOf y) v) →
      (l.map (colE (classesOf y).length i)).sum =
        (((l.map Prod.snd).count (oneHotRow (classesOf y) ((classesOf y).getD i 0)) : Nat) :
          ℚ) := by
  intro l
  induction l with
  | nil => simp
  | cons p l ih =>
    intro h
    obtain ⟨v, hv, hrow⟩ := h p (by simp)
    have hcol := colE_aligned y v i hi p hrow
    have hmemi : (classesOf y).getD i 0 ∈ classesOf y := by
      rw [List.getD_eq_getElem _ _ hi]
      exact List.getElem_mem hi
    have hiff : (oneHotRow (classesOf y) ((classesOf y).getD i 0) = p.2) ↔
        (v = (classesOf y).getD i 0) := by
      rw [hrow]
      constructor
      · intro heq
        exact (oneHotRow_inj _ _ _ hmemi heq).symm
      · intro heq
        rw [heq]
    simp only [List.map_cons, List.sum_cons, List.count_cons, beq_iff_eq]
    rw [ih (fun q hq => h q (by simp [hq])), hcol]
    by_cases hcase : v = (classesOf y).getD i 0
    · rw [if_pos hcase, if_pos (hiff.2 hcase).symm]
      push_cast
      ring
    · rw [if_neg hcase, if_neg (fun hx => hcase (hiff.1 (Eq.symm hx)))]
      push_cast
      ring

theorem count_map_oneHotRow (cs : List ℚ) (c : ℚ) :
    ∀ l : List ℚ, (∀ v ∈ l, v ∈ cs) →
      (l.map (oneHotRow cs)).count (oneHotRow cs c) = l.count c := by
  intro l
  induction l with
  | nil => intro _; rfl
  | cons v l ih =>
    intro h
    have hv : v ∈ cs := h v (by simp)
    have hiff : (oneHotRow cs c = oneHotRow cs v) ↔ (c = v) := by
      constructor
      · intro heq
        exact (oneHotRow_inj cs v c hv heq.symm).symm
      · intro heq
        rw [heq]
    simp only [List.map_cons, List.count_cons, beq_iff_eq]
    rw [ih (fun w hw => h w (by simp [hw]))]
    by_cases hcase : c = v
    · rw [if_pos (hiff.2 hcase).symm, if_pos hcase.symm]
    · rw [if_neg (fun hx => hcase (hiff.1 (Eq.symm hx))),
        if_neg (fun hx => hcase (Eq.symm hx))]

theorem leftCount_eq_specLeftCount (f y : List ℚ) (j i : Nat) :
    leftCount f y (oneHot y) j i = specLeftCount f (oneHot y) j i := by
  rw [leftCount, specLeftCount]
  congr 1
  refine List.map_congr_left ?_
  intro p hp
  obtain ⟨v, _, hrow⟩ := sortRows_row_aligned f y p (List.mem_of_mem_take hp)
  rw [colE, hrow, oneHotRow_length, Nat.sub_self, Nat.zero_add]

/-- C2 (amended): when every one-hot column corresponds to a class that is
present in `y` (the matrix is the one-hot of exactly the distinct labels of
`y`), the left count of class `i` at candidate `j` is entry `j` of numpy's
`cumsum()[:-1]` of that column, equals the prefix sum of the *corresponding*
one-hot column over the sorted rows, and counts exactly the class-`i` rows
among the first `j+1` sorted rows; the right count is the total class count
minus the left count and counts exactly the class-`i` rows in the remaining
sorted rows; and each candidate's score is
`(left_total·gini_left + right_total·gini_right) / N` with
`gini = 1 − Σ_c (count_c / total)²`.  (The unamended claim also covers
matrices with a column for an absent class; the counterexample shows the
source then reads the wrong columns.) -/
theorem gini_candidate_formula (f y : List ℚ) (tg : List (List ℚ))
    (hlen : f.length = y.length) (htg : tg = oneHot y) (j : Nat)
    (hj : j < f.length - 1) :
    (∀ i, leftCount f y tg j i = ((cumsum (colList f y tg i)).dropLast).getD j 0) ∧
      (∀ i, leftCount f y tg j i = specLeftCount f tg j i) ∧
      (∀ i, i < (classesOf y).length → leftCount f y tg j i =
        (((((sortRows f tg).take (j + 1)).map Prod.snd).count
          (oneHotRow (classesOf y) ((classesOf y).getD i 0)) : Nat) : ℚ)) ∧
      (∀ i, rightCount f y tg j i = countQ y i - leftCount f y tg j i) ∧
      (∀ i, i < (classesOf y).length → rightCount f y tg j i =
        (((((sortRows f tg).drop (j + 1)).map Prod.snd).count
          (oneHotRow (classesOf y) ((classesOf y).getD i 0)) : Nat) : ℚ)) ∧
      gScore f y tg j = some
        ((sumLeft f y tg j *
            (1 - ∑ i in Finset.range (classesOf y).length,
              (leftCount f y tg j i / sumLeft f y tg j) ^ 2) +
          sumRight f y tg j *
            (1 - ∑ i in Finset.range (classesOf y).length,
              (rightCount f y tg j i / sumRight f y tg j) ^ 2)) / (y.length : ℚ)) := by
  subst htg
  have hlt : (oneHot y).length = f.length := by simp [oneHot, hlen]
  have hslen : (sortRows f (oneHot y)).length = f.length := length_sortRows f _ hlt
  obtain ⟨_, _, hs1, hs2, hst⟩ := aligned_candidate f y hlen j hj
  have hcA : ∀ i, leftCount f y (oneHot y) j i =
      ((cumsum (colList f y (oneHot y) i)).dropLast).getD j 0 := by
    intro i
    have hcl : (colList f y (oneHot y) i).length = f.length := by
      rw [colList, List.length_map, hslen]
    rw [dropLast_getD _ j (by rw [cumsum_length, hcl]; omega),
      cumsum_getD _ j (by rw [hcl]; omega), leftCount, colList, List.map_take]
  have hcC : ∀ i, i < (classesOf y).length → leftCount f y (oneHot y) j i =
      (((((sortRows f (oneHot y)).take (j + 1)).map Prod.snd).count
        (oneHotRow (classesOf y) ((classesOf y).getD i 0)) : Nat) : ℚ) := by
    intro i hi
    rw [leftCount]
    exact sum_colE_eq_count y i hi _
      (fun p hp => sortRows_row_aligned f y p (List.mem_of_mem_take hp))
  have hcE : ∀ i, i < (classesOf y).length → rightCount f y (oneHot y) j i =
      (((((sortRows f (oneHot y)).drop (j + 1)).map Prod.snd).count
        (oneHotRow (classesOf y) ((classesOf y).getD i 0)) : Nat) : ℚ) := by
    intro i hi
    have hall : ((sortRows f (oneHot y)).map Prod.snd).count
        (oneHotRow (classesOf y) ((classesOf y).getD i 0)) =
        y.count ((classesOf y).getD i 0) := by
      have hperm : ((sortRows f (oneHot y)).map Prod.snd).Perm
          ((f.zip (oneHot y)).map Prod.snd) := (List.perm_insertionSort _ _).map _
      have hzip : (f.zip (oneHot y)).map Prod.snd = oneHot y :=
        List.map_snd_zip f (oneHot y) (le_of_eq hlt)
      have h1 : ((sortRows f (oneHot y)).map Prod.snd).count
          (oneHotRow (classesOf y) ((classesOf y).getD i 0)) =
          ((f.zip (oneHot y)).map Prod.snd).count
            (oneHotRow (classesOf y) ((classesOf y).getD i 0)) :=
        hperm.countP_eq _
      rw [h1, hzip, oneHot]
      exact count_map_oneHotRow (classesOf y) _ y (fun v hv => mem_classes.2 hv)
    have hsplit : (sortRows f (oneHot y)).map Prod.snd =
        ((sortRows f (oneHot y)).take (j + 1)).map Prod.snd ++
          ((sortRows f (oneHot y)).drop (j + 1)).map Prod.snd := by
      rw [← List.map_append, List.take_append_drop]
    rw [hsplit, List.count_append] at hall
    have hrq : rightCount f y (oneHot y) j i =
        countQ y i - leftCount f y (oneHot y) j i := rfl
    rw [hrq, hcC i hi]
    have hcq : countQ y i = ((y.count ((classesOf y).getD i 0) : Nat) : ℚ) := rfl
    rw [hcq, ← hall]
    push_cast
    ring
  refine ⟨hcA, leftCount_eq_specLeftCount f y j, hcC, fun i => rfl, hcE, ?_⟩
  have hyne : (y.length : ℚ) ≠ 0 := by rwa [sTotal_eq_length] at hst
  rw [gScore_eval f y (oneHot y) j hs1 hs2 hst, sTotal_eq_length]
  congr 1
  field_simp
  ring

/-- C2 counterexample: `y = [0, 1]` with the row-aligned one-hot matrix over
the classes `{0, 1, 2}` (class 2 absent, its column all zero).  The claim
says the left count of class 0 at the first candidate equals the prefix sum
of the corresponding one-hot column — which is 1, and which indeed counts
the one class-0 row `[1, 0, 0]` in the left partition; the source reads
`a[:, -n_classes + i]`, i.e. the class-1 column, and gets 0. -/
theorem gini_left_count_misaligned_cex :
    leftCount [1, 2] [0, 1] [[1, 0, 0], [0, 1, 0]] 0 0 = 0 ∧
      specLeftCount [1, 2] [[1, 0, 0], [0, 1, 0]] 0 0 = 1 ∧
      (((sortRows [1, 2] [[1, 0, 0], [0, 1, 0]]).take 1).map Prod.snd).count
        ([1, 0, 0] : List ℚ) = 1 ∧
      leftCount [1, 2] [0, 1] [[1, 0, 0], [0, 1, 0]] 0 0 ≠
        specLeftCount [1, 2] [[1, 0, 0], [0, 1, 0]] 0 0 ∧
      leftCount [1, 2] [0, 1] [[1, 0, 0], [0, 1, 0]] 0 0 ≠
        (((((sortRows [1, 2] [[1, 0, 0], [0, 1, 0]]).take 1).map Prod.snd).count
          ([1, 0, 0] : List ℚ) : Nat) : ℚ) := by
  refine ⟨?_, ?_, ?_, ?_, ?_⟩ <;>
    norm_num [leftCount, specLeftCount, sortRows, colE, classesOf, pairLe, List.count_cons,
      List.insertionSort, List.orderedInsert, List.dedup_cons_of_not_mem,
      List.dedup_cons_of_mem]

/-- C3 (amended): a zero partition total never aborts the computation
(`gini` still returns, and candidates whose totals are nonzero keep their
ordinary finite scores), but the affected candidate's own score becomes NaN
(modelled `none`) rather than a neutral 0. -/
theorem gini_zero_total_behaviour (f y : List ℚ) (tg : List (List ℚ))
    (h01 : ∀ row ∈ tg, ∀ q ∈ row, 0 ≤ q) (hnC : 1 ≤ (classesOf y).length) :
    (splitsOf f tg ≠ [] → (gini f y tg).isSome) ∧
      (∀ j, sumLeft f y tg j ≠ 0 → sumRight f y tg j ≠ 0 → sTotal y ≠ 0 →
        (gScore f y tg j).isSome) ∧
      (∀ j, sumLeft f y tg j = 0 → gScore f y tg j = none) := by
  refine ⟨?_, ?_, ?_⟩
  · intro hne
    have hgne : gList f y tg ≠ [] := by
      intro hcon
      apply hne
      have : (gList f y tg).length = (splitsOf f tg).length := by simp [gList]
      rw [hcon] at this
      exact List.eq_nil_of_length_eq_zero this.symm
    obtain ⟨g0, rest, _, hgini⟩ := gini_eq_of_ne_nil f y tg hgne
    rw [hgini]
    rfl
  · intro j hs1 hs2 hst
    rw [gScore_eval f y tg j hs1 hs2 hst]
    rfl
  · intro j hzero
    exact gScore_nan_of_sumLeft_zero f y tg j h01 hzero hnC

/-- C3 counterexample: `y = [0, 0, 1, 1]` with the row-aligned one-hot
matrix over `{0, 1, 2}` (class 2 absent).  The computed left total of the
first candidate is 0, and the resulting `0/0` makes that candidate's score
NaN (`none`) — an invalid value in that candidate's score, not the neutral 0
contribution the claim requires. -/
theorem gini_zero_total_nan_cex :
    sumLeft [1, 2, 3, 4] [0, 0, 1, 1] [[1, 0, 0], [1, 0, 0], [0, 1, 0], [0, 1, 0]] 0 = 0 ∧
      gScore [1, 2, 3, 4] [0, 0, 1, 1] [[1, 0, 0], [1, 0, 0], [0, 1, 0], [0, 1, 0]] 0 = none := by
  constructor <;>
    norm_num [sumLeft, leftCount, gScore, giniT1, giniT2, giniHalf, sumRight, rightCount,
      sTotal, countQ, sortRows, colE, classesOf, pairLe, List.insertionSort,
      List.orderedInsert, List.dedup_cons_of_not_mem, List.dedup_cons_of_mem,
      List.count_cons, Finset.sum_range_succ, List.range_succ, nadd, nsub, nmul, ndiv]

/-! ### `Counter.most_common` lemmas -/

theorem pos_cons_self (c : ℚ) (l : List ℚ) : pos c (c :: l) = 0 := by
  simp [pos]

theorem pos_cons_ne (a c : ℚ) (l : List ℚ) (h : a ≠ c) : pos c (a :: l) = pos c l + 1 := by
  simp [pos, h]

theorem pos_append_not_mem (c : ℚ) (l2 : List ℚ) :
    ∀ l1 : List ℚ, c ∉ l1 → pos c (l1 ++ l2) = l1.length + pos c l2 := by
  intro l1
  induction l1 with
  | nil => intro _; simp
  | cons a as ih =>
    intro h
    have ha : a ≠ c := fun hac => h (by simp [hac])
    rw [List.cons_append, pos_cons_ne a c _ ha, ih (fun hc => h (by simp [hc]))]
    simp only [List.length_cons]
    omega

theorem mc_fold (y : List ℚ) :
    ∀ (cs : List ℚ) (acc : ℚ × ℕ), acc.2 = y.count acc.1 →
      (cs.foldl (fun acc c => if acc.2 < y.count c then (c, y.count c) else acc) acc).2 =
        y.count (cs.foldl (fun acc c => if acc.2 < y.count c then (c, y.count c) else acc) acc).1 ∧
      acc.2 ≤ (cs.foldl (fun acc c => if acc.2 < y.count c then (c, y.count c) else acc) acc).2 ∧
      (∀ a ∈ cs, y.count a ≤
        (cs.foldl (fun acc c => if acc.2 < y.count c then (c, y.count c) else acc) acc).2) ∧
      ((cs.foldl (fun acc c => if acc.2 < y.count c then (c, y.count c) else acc) acc) = acc ∨
        ∃ l1 l2, cs = l1 ++
            (cs.foldl (fun acc c => if acc.2 < y.count c then (c, y.count c) else acc) acc).1 ::
              l2 ∧
          acc.2 < (cs.foldl (fun acc c => if acc.2 < y.count c then (c, y.count c) else acc) acc).2 ∧
          ∀ b ∈ l1, y.count b <
            (cs.foldl (fun acc c => if acc.2 < y.count c then (c, y.count c) else acc) acc).2) := by
  intro cs
  induction cs with
  | nil =>
    intro acc hacc
    exact ⟨hacc, le_refl _, by simp, Or.inl rfl⟩
  | cons c cs ih =>
    intro acc hacc
    by_cases hrep : acc.2 < y.count c
    · have hstep : (c :: cs).foldl
          (fun acc c => if acc.2 < y.count c then (c, y.count c) else acc) acc =
          cs.foldl (fun acc c => if acc.2 < y.count c then (c, y.count c) else acc)
            (c, y.count c) := by
        simp [hrep]
      obtain ⟨ih1, ih2, ih3, ih4⟩ := ih (c, y.count c) rfl
      rw [hstep]
      set r2 := cs.foldl (fun acc c => if acc.2 < y.count c then (c, y.count c) else acc)
        (c, y.count c) with hr2
      refine ⟨ih1, le_trans (le_of_lt hrep) ih2, ?_, ?_⟩
      · intro a ha
        rcases List.mem_cons.1 ha with rfl | ha2
        · exact ih2
        · exact ih3 a ha2
      · rcases ih4 with heq | ⟨l1, l2, hdec, hlt, hall⟩
        · right
          refine ⟨[], cs, ?_, ?_, by simp⟩
          · rw [heq]
            rfl
          · rw [heq]
            exact hrep
        · right
          refine ⟨c :: l1, l2, ?_, lt_of_lt_of_le hrep ih2, ?_⟩
          · rw [hdec]
            rfl
          · intro b hb
            rcases List.mem_cons.1 hb with rfl | hb2
            · exact hlt
            · exact hall b hb2
    · have hstep : (c :: cs).foldl
          (fun acc c => if acc.2 < y.count c then (c, y.count c) else acc) acc =
          cs.foldl (fun acc c => if acc.2 < y.count c then (c, y.count c) else acc) acc := by
        simp [hrep]
      obtain ⟨ih1, ih2, ih3, ih4⟩ := ih acc hacc
      rw [hstep]
      set r2 := cs.foldl (fun acc c => if acc.2 < y.count c then (c, y.count c) else acc)
        acc with hr2
      refine ⟨ih1, ih2, ?_, ?_⟩
      · intro a ha
        rcases List.mem_cons.1 ha with rfl | ha2
        · exact le_trans (not_lt.1 hrep) ih2
        · exact ih3 a ha2
      · rcases ih4 with heq | ⟨l1, l2, hdec, hlt, hall⟩
        · exact Or.inl heq
        · right
          refine ⟨c :: l1, l2, ?_, hlt, ?_⟩
          · rw [hdec]
            rfl
          · intro b hb
            rcases List.mem_cons.1 hb with rfl | hb2
            · exact lt_of_le_of_lt (not_lt.1 hrep) hlt
            · exact hall b hb2

theorem mostCommonOpt_spec (y : List ℚ) (hy : y ≠ []) :
    ∃ lab cnt, mostCommonOpt y = some (lab, cnt) ∧ lab ∈ y ∧ cnt = y.count lab ∧
      (∀ c, y.count c ≤ cnt) ∧
      (∀ c ∈ y, c ≠ lab → cnt ≤ y.count c → pos lab y < pos c y) := by
  match y with
  | [] => exact absurd rfl hy
  | a :: rest =>
    set y := a :: rest with hydef
    obtain ⟨h1, h2, h3, h4⟩ := mc_fold y y (a, y.count a) rfl
    set r := y.foldl (fun acc c => if acc.2 < y.count c then (c, y.count c) else acc)
      (a, y.count a) with hrdef
    have hmc : mostCommonOpt y = some r := by
      rw [mostCommonOpt]
    have hmem : r.1 ∈ y := by
      rcases h4 with heq | ⟨l1, l2, hdec, _, _⟩
      · rw [heq]
        simp [hydef]
      · rw [hdec]
        simp
    have hmax : ∀ c, y.count c ≤ r.2 := by
      intro c
      by_cases hc : c ∈ y
      · exact h3 c hc
      · rw [List.count_eq_zero_of_not_mem hc]
        omega
    refine ⟨r.1, r.2, by rw [hmc], hmem, h1, hmax, ?_⟩
    intro c hc hne hge
    have hceq : y.count c = r.2 := le_antisymm (hmax c) hge
    rcases h4 with heq | ⟨l1, l2, hdec, hlt, hall⟩
    · have hr1 : r.1 = a := by rw [heq]
      have hr2 : pos r.1 y = 0 := by
        rw [hr1, hydef]
        exact pos_cons_self a rest
      have hcne : a ≠ c := by
        rw [← hr1]
        exact fun h => hne h.symm
      rw [hr2, hydef, pos_cons_ne a c rest hcne]
      omega
    · have hnl1 : r.1 ∉ l1 := by
        intro hmem1
        have := hall _ hmem1
        rw [← h1] at this
        omega
      have hcl1 : c ∉ l1 := by
        intro hmem1
        have := hall _ hmem1
        omega
      have hp1 : pos r.1 y = l1.length := by
        rw [hdec, pos_append_not_mem _ _ l1 hnl1, pos_cons_self]
        omega
      have hp2 : pos c y = l1.length + (pos c l2 + 1) := by
        rw [hdec, pos_append_not_mem _ _ l1 hcl1, pos_cons_ne _ _ _ (fun h => hne h.symm)]
      rw [hp1, hp2]
      omega

theorem le_foldr_max (a : Nat) : ∀ l : List Nat, a ∈ l → a ≤ l.foldr max 0 := by
  intro l
  induction l with
  | nil => intro h; cases h
  | cons b bs ih =>
    intro h
    rcases List.mem_cons.1 h with rfl | h2
    · simp [List.foldr_cons, le_max_iff]
    · simp only [List.foldr_cons, le_max_iff]
      exact Or.inr (ih h2)

theorem foldr_max_le (b : Nat) : ∀ l : List Nat, (∀ a ∈ l, a ≤ b) → l.foldr max 0 ≤ b := by
  intro l
  induction l with
  | nil => intro _; simp
  | cons c cs ih =>
    intro h
    simp only [List.foldr_cons, max_le_iff]
    exact ⟨h c (by simp), ih (fun a ha => h a (by simp [ha]))⟩

theorem majCount_eq (y : List ℚ) (lab : ℚ) (hlab : lab ∈ y)
    (hmax : ∀ c, y.count c ≤ y.count lab) : majCount y = y.count lab := by
  refine le_antisymm ?_ ?_
  · refine foldr_max_le _ _ ?_
    intro a ha
    obtain ⟨c, _, hc⟩ := List.mem_map.1 ha
    rw [← hc]
    exact hmax c
  · exact le_foldr_max _ _ (List.mem_map.2 ⟨lab, hlab, rfl⟩)

/-! ### `attempt_split` lemmas -/

theorem attemptSplit_inv : ∀ (fuel : Nat) (samp : List Bool → List Nat) (path : List Bool)
    (g0 : NVal) (x : List (List ℚ)) (y : List ℚ) (tg : List (List ℚ)) (t : PyNode),
    attemptSplit fuel samp path g0 x y tg = SplitRes.ok t → trainedInv t = true := by
  intro fuel
  induction fuel with
  | zero =>
    intro samp path g0 x y tg t h
    exact absurd h (by simp [attemptSplit])
  | succ n ih =>
    intro samp path g0 x y tg t h
    rw [attemptSplit] at h
    split at h
    · exact absurd h (by simp)
    · split at h
      · cases h
        rfl
      · split at h
        · exact absurd h (by simp)
        · split at h
          · cases h
            rfl
          · dsimp only at h
            split at h
            · split at h
              · cases h
                rfl
              · split at h
                · exact absurd h (by simp)
                · exact absurd h (by simp)
                · split at h
                  · exact absurd h (by simp)
                  · exact absurd h (by simp)
                  · cases h
                    rename_i xl lt2 hl xr rt2 hr
                    show trainedInv (internalNode _ _ _ _ _) = true
                    simp only [internalNode, trainedInv, Bool.and_eq_true]
                    exact ⟨ih _ _ _ _ _ _ _ hl, ih _ _ _ _ _ _ _ hr⟩
            · exact absurd h (by simp)

theorem maskIdx_eq {m : List Bool} {l l2 : List α} (h : maskIdx m l = some l2) :
    l2 = applyMask m l ∧ m.length = l.length := by
  rw [maskIdx] at h
  split at h
  · injection h with h2
    exact ⟨h2.symm, by assumption⟩
  · cases h

theorem mostCommonOpt_spec2 (y : List ℚ) (lab : ℚ) (cnt : Nat)
    (hmc : mostCommonOpt y = some (lab, cnt)) :
    lab ∈ y ∧ cnt = y.count lab ∧ (∀ c, y.count c ≤ cnt) ∧
      (∀ c ∈ y, c ≠ lab → cnt ≤ y.count c → pos lab y < pos c y) := by
  have hy : y ≠ [] := by
    intro hcon
    subst hcon
    simp [mostCommonOpt] at hmc
  obtain ⟨lab2, cnt2, hmc2, hmem, hcnt, hmax, htie⟩ := mostCommonOpt_spec y hy
  rw [hmc] at hmc2
  injection hmc2 with h2
  injection h2 with h3 h4
  subst h3
  subst h4
  exact ⟨hmem, hcnt, hmax, htie⟩

theorem attemptSplit_internal (fuel : Nat) (samp : List Bool → List Nat) (path : List Bool)
    (g0 : NVal) (x : List (List ℚ)) (y : List ℚ) (tg : List (List ℚ)) (t : PyNode)
    (h : attemptSplit (fuel + 1) samp path g0 x y tg = SplitRes.ok t)
    (hlab : t.label = none) :
    ∃ feature value splitG lt rt y1 y2 t1 t2,
      t = internalNode feature value splitG lt rt ∧
      splitFeatureValue (samp path) x y tg = some (feature, value, splitG) ∧
      maskIdx (x.map (fun row => decide (row.getD feature 0 ≤ value))) y = some y1 ∧
      maskIdx (x.map (fun row => decide (value < row.getD feature 0))) y = some y2 ∧
      maskIdx (x.map (fun row => decide (row.getD feature 0 ≤ value))) tg = some t1 ∧
      maskIdx (x.map (fun row => decide (value < row.getD feature 0))) tg = some t2 ∧
      y1 ≠ [] ∧ y2 ≠ [] ∧
      attemptSplit fuel samp (path ++ [false]) splitG
        (applyMask (x.map (fun row => decide (row.getD feature 0 ≤ value))) x) y1 t1 =
        SplitRes.ok lt ∧
      attemptSplit fuel samp (path ++ [true]) splitG
        (applyMask (x.map (fun row => decide (value < row.getD feature 0))) x) y2 t2 =
        SplitRes.ok rt := by
  rw [attemptSplit] at h
  split at h
  · exact absurd h (by simp)
  · split at h
    · cases h
      exact absurd hlab (by simp [leafNode, PyNode.label])
    · split at h
      · exact absurd h (by simp)
      · split at h
        · cases h
          exact absurd hlab (by simp [leafNode, PyNode.label])
        · dsimp only at h
          split at h
          · split at h
            · cases h
              exact absurd hlab (by simp [leafNode, PyNode.label])
            · split at h
              · exact absurd h (by simp)
              · exact absurd h (by simp)
              · split at h
                · exact absurd h (by simp)
                · exact absurd h (by simp)
                · cases h
                  rename_i mcv lab cnt hmc hnotstop sfvv feature value splitG hsfv hnotB
                    o1 o2 o3 o4 y1 y2 t1 t2 hm1y hm2y hm1t hm2t hne xl lt2 hl xr rt2 hr
                  push_neg at hne
                  exact ⟨_, _, _, lt2, rt2, y1, y2, t1, t2, rfl, hsfv, hm1y, hm2y, hm1t,
                    hm2t, hne.2, hne.1, hl, hr⟩
          · exact absurd h (by simp)

theorem attemptSplit_leafLabels (fuel : Nat) :
    ∀ (samp : List Bool → List Nat) (path : List Bool) (g0 : NVal) (x : List (List ℚ))
      (y : List ℚ) (tg : List (List ℚ)) (t : PyNode),
      attemptSplit fuel samp path g0 x y tg = SplitRes.ok t →
        ∀ c ∈ leafLabels t, c ∈ y := by
  induction fuel with
  | zero =>
    intro samp path g0 x y tg t h
    exact absurd h (by simp [attemptSplit])
  | succ n ih =>
    intro samp path g0 x y tg t h
    rw [attemptSplit] at h
    split at h
    · exact absurd h (by simp)
    · rename_i mc lab cnt hmc
      have hlabmem : lab ∈ y := (mostCommonOpt_spec2 y lab cnt hmc).1
      have hleaf : ∀ c ∈ leafLabels (leafNode g0 lab), c ∈ y := by
        intro c hc
        simp only [leafNode, leafLabels, Option.toList_some, List.mem_singleton] at hc
        exact hc ▸ hlabmem
      split at h
      · cases h
        exact hleaf
      · split at h
        · exact absurd h (by simp)
        · split at h
          · cases h
            exact hleaf
          · dsimp only at h
            split at h
            · rename_i sfvv feature value splitG hsfv hnotB o1 o2 o3 o4 y1 y2 t1 t2
                hm1y hm2y hm1t hm2t
              split at h
              · cases h
                exact hleaf
              · split at h
                · exact absurd h (by simp)
                · exact absurd h (by simp)
                · split at h
                  · exact absurd h (by simp)
                  · exact absurd h (by simp)
                  · cases h
                    rename_i xl lt2 hl xr rt2 hr
                    intro c hc
                    simp only [internalNode, leafLabels, Option.toList_none,
                      List.nil_append, List.mem_append] at hc
                    have hy1 := (maskIdx_eq hm1y).1
                    have hy2 := (maskIdx_eq hm2y).1
                    rcases hc with hc | hc
                    · exact applyMask_subset _ y c (hy1 ▸ ih _ _ _ _ _ _ _ hl c hc)
                    · exact applyMask_subset _ y c (hy2 ▸ ih _ _ _ _ _ _ _ hr c hc)
            · exact absurd h (by simp)

theorem attemptSplit_no_out : ∀ (fuel : Nat) (samp : List Bool → List Nat) (path : List Bool)
    (g0 : NVal) (x : List (List ℚ)) (y : List ℚ) (tg : List (List ℚ)),
    x.length < fuel → attemptSplit fuel samp path g0 x y tg ≠ SplitRes.out := by
  intro fuel
  induction fuel with
  | zero =>
    intro samp path g0 x y tg hf
    omega
  | succ n ih =>
    intro samp path g0 x y tg hf h
    rw [attemptSplit] at h
    split at h
    · exact absurd h (by simp)
    · split at h
      · exact absurd h (by simp)
      · split at h
        · exact absurd h (by simp)
        · split at h
          · exact absurd h (by simp)
          · dsimp only at h
            split at h
            · rename_i sfvv feature value splitG hsfv hnotB o1 o2 o3 o4 y1 y2 t1 t2
                hm1y hm2y hm1t hm2t
              split at h
              · exact absurd h (by simp)
              · rename_i hne
                push_neg at hne
                have hy1 : y1 = applyMask
                    (x.map (fun row => decide (row.getD feature 0 ≤ value))) y :=
                  (maskIdx_eq hm1y).1
                have hy2 : y2 = applyMask
                    (x.map (fun row => decide (value < row.getD feature 0))) y :=
                  (maskIdx_eq hm2y).1
                have hxlen : 1 ≤ x.length := by
                  by_contra hcon
                  have hx0 : x = [] := by
                    cases x with
                    | nil => rfl
                    | cons a as => simp at hcon
                  subst hx0
                  apply hne.1
                  rw [hy2]
                  rfl
                have hleft_len : (applyMask
                    (x.map (fun row => decide (row.getD feature 0 ≤ value))) x).length < n := by
                  have htrue := applyMask_ne_nil_true _ y (hy2 ▸ hne.1)
                  obtain ⟨row, hrow, hdec⟩ := List.mem_map.1 htrue
                  simp only [decide_eq_true_eq] at hdec
                  rw [applyMask_map_eq_filter]
                  have hlt := length_filter_lt_of_exists
                    (fun row => decide (row.getD feature 0 ≤ value)) x row hrow
                    (decide_eq_false (not_le.2 hdec))
                  omega
                have hright_len : (applyMask
                    (x.map (fun row => decide (value < row.getD feature 0))) x).length < n := by
                  have htrue := applyMask_ne_nil_true _ y (hy1 ▸ hne.2)
                  obtain ⟨row, hrow, hdec⟩ := List.mem_map.1 htrue
                  simp only [decide_eq_true_eq] at hdec
                  rw [applyMask_map_eq_filter]
                  have hlt := length_filter_lt_of_exists
                    (fun row => decide (value < row.getD feature 0)) x row hrow
                    (decide_eq_false (not_lt.2 hdec))
                  omega
                split at h
                · rename_i hl
                  exact ih samp (path ++ [false]) splitG _ y1 t1 hleft_len hl
                · exact absurd h (by simp)
                · split at h
                  · rename_i hr
                    exact ih samp (path ++ [true]) splitG _ y2 t2 hright_len hr
                  · exact absurd h (by simp)
                  · exact absurd h (by simp)
            · exact absurd h (by simp)

/-- C4: if only one class is present, or the majority class covers more than
90% of the rows, `attempt_split` makes the node a leaf labelled with the
majority class (ties to the earliest first occurrence) and creates no
children; with a single distinct label the leaf carries exactly that label,
whatever the feature values are. -/
theorem attemptSplit_stop_condition_A (fuel : Nat) (samp : List Bool → List Nat)
    (path : List Bool) (g0 : NVal) (x : List (List ℚ)) (y : List ℚ) (tg : List (List ℚ))
    (hy : y ≠ []) (hstop : y.toFinset.card = 1 ∨ 9 * y.length < 10 * majCount y) :
    ∃ lab, attemptSplit (fuel + 1) samp path g0 x y tg = SplitRes.ok (leafNode g0 lab) ∧
      (leafNode g0 lab).label = some lab ∧
      (leafNode g0 lab).left_child = none ∧ (leafNode g0 lab).right_child = none ∧
      lab ∈ y ∧ (∀ c, y.count c ≤ y.count lab) ∧
      (y.toFinset.card = 1 → ∀ c ∈ y, c = lab) := by
  obtain ⟨lab, cnt, hmc, hmem, hcnt, hmax, _⟩ := mostCommonOpt_spec y hy
  have hmaj : majCount y = cnt := by
    rw [majCount_eq y lab hmem (fun c => hcnt ▸ hmax c), hcnt]
  have hcond : y.toFinset.card = 1 ∨ 9 * y.length < 10 * cnt := by
    rwa [hmaj] at hstop
  refine ⟨lab, ?_, rfl, rfl, rfl, hmem, fun c => hcnt ▸ hmax c, ?_⟩
  · rw [attemptSplit, hmc]
    simp only [if_pos hcond]
  · intro hcard c hc
    obtain ⟨a, ha⟩ := Finset.card_eq_one.1 hcard
    have h1 : c ∈ y.toFinset := List.mem_toFinset.2 hc
    have h2 : lab ∈ y.toFinset := List.mem_toFinset.2 hmem
    rw [ha, Finset.mem_singleton] at h1 h2
    rw [h1, h2]

/-- C5: whenever `attempt_split` commits an internal split, the rows are
partitioned into `x[:, feature] <= value` and `x[:, feature] > value`; the
two parts are disjoint and exhaustive (`|left| + |right| = |input|`, with the
membership conditions), and the two children are trained exactly on the two
partitions, with labels and one-hot rows restricted by the same masks. -/
theorem attemptSplit_partition (fuel : Nat) (samp : List Bool → List Nat) (path : List Bool)
    (g0 : NVal) (x : List (List ℚ)) (y : List ℚ) (tg : List (List ℚ)) (t : PyNode)
    (h : attemptSplit (fuel + 1) samp path g0 x y tg = SplitRes.ok t)
    (hlab : t.label = none) :
    ∃ feature value splitG lt rt,
      t = internalNode feature value splitG lt rt ∧
      t.split_feature = some feature ∧ t.split_value = some value ∧
      t.left_child = some lt ∧ t.right_child = some rt ∧
      (x.filter (fun row => decide (row.getD feature 0 ≤ value))).length +
        (x.filter (fun row => decide (value < row.getD feature 0))).length = x.length ∧
      (∀ row ∈ x.filter (fun row => decide (row.getD feature 0 ≤ value)),
        row.getD feature 0 ≤ value) ∧
      (∀ row ∈ x.filter (fun row => decide (value < row.getD feature 0)),
        value < row.getD feature 0) ∧
      ∃ y1 y2 t1 t2,
        maskIdx (x.map (fun row => decide (row.getD feature 0 ≤ value))) y = some y1 ∧
        maskIdx (x.map (fun row => decide (value < row.getD feature 0))) y = some y2 ∧
        maskIdx (x.map (fun row => decide (row.getD feature 0 ≤ value))) tg = some t1 ∧
        maskIdx (x.map (fun row => decide (value < row.getD feature 0))) tg = some t2 ∧
        y1 ≠ [] ∧ y2 ≠ [] ∧
        attemptSplit fuel samp (path ++ [false]) splitG
          (x.filter (fun row => decide (row.getD feature 0 ≤ value))) y1 t1 =
          SplitRes.ok lt ∧
        attemptSplit fuel samp (path ++ [true]) splitG
          (x.filter (fun row => decide (value < row.getD feature 0))) y2 t2 =
          SplitRes.ok rt := by
  obtain ⟨feature, value, splitG, lt2, rt2, y1, y2, t1, t2, ht, hsfv, hm1y, hm2y, hm1t, hm2t,
    hy1ne, hy2ne, hl, hr⟩ := attemptSplit_internal fuel samp path g0 x y tg t h hlab
  rw [applyMask_map_eq_filter] at hl hr
  have hfilter2 : x.filter (fun row => decide (value < row.getD feature 0)) =
      x.filter (fun row => !(decide (row.getD feature 0 ≤ value))) := by
    refine List.filter_congr ?_
    intro row _
    rw [← decide_not, decide_eq_decide]
    exact not_le.symm
  refine ⟨feature, value, splitG, lt2, rt2, ht, by rw [ht]; rfl, by rw [ht]; rfl,
    by rw [ht]; rfl, by rw [ht]; rfl, ?_, ?_, ?_, y1, y2, t1, t2, hm1y, hm2y, hm1t, hm2t,
    hy1ne, hy2ne, hl, hr⟩
  · rw [hfilter2]
    exact length_filter_add_length_filter_not _ x
  · intro row hrow
    have := List.of_mem_filter hrow
    simpa using this
  · intro row hrow
    have := List.of_mem_filter hrow
    simpa using this

theorem trainedInv_descendants : ∀ (t : PyNode), trainedInv t = true →
    ∀ n ∈ descendants t,
      (isLeaf n = true ∧ n.left_child = none ∧ n.right_child = none) ∨
        (isLeaf n = false ∧ n.left_child ≠ none ∧ n.right_child ≠ none)
  | .mk none none sf sv g (some c), _ => by
    intro n hn
    simp only [descendants, List.mem_singleton] at hn
    subst hn
    left
    exact ⟨rfl, rfl, rfl⟩
  | .mk (some l) (some r) sf sv g none, ht => by
    intro n hn
    have hinv : trainedInv l = true ∧ trainedInv r = true := by
      simpa [trainedInv, Bool.and_eq_true] using ht
    simp only [descendants, List.mem_cons, List.mem_append] at hn
    rcases hn with rfl | hn | hn
    · right
      refine ⟨rfl, ?_, ?_⟩ <;> simp [PyNode.left_child, PyNode.right_child]
    · exact trainedInv_descendants l hinv.1 n hn
    · exact trainedInv_descendants r hinv.2 n hn
  | .mk none none sf sv g none, ht => by simp [trainedInv] at ht
  | .mk (some l) none sf sv g lab, ht => by simp [trainedInv] at ht
  | .mk none (some r) sf sv g lab, ht => by simp [trainedInv] at ht
  | .mk (some l) (some r) sf sv g (some c), ht => by simp [trainedInv] at ht

/-- C7: every node of a tree produced by a completed `attempt_split` run is
either a leaf (`is_leaf`, i.e. `label` set, and no children) or an internal
node (no label and both children present) — the two cases are mutually
exclusive and exhaustive over all reachable trained nodes. -/
theorem attemptSplit_leaf_xor_children (fuel : Nat) (samp : List Bool → List Nat)
    (path : List Bool) (g0 : NVal) (x : List (List ℚ)) (y : List ℚ) (tg : List (List ℚ))
    (t : PyNode) (h : attemptSplit fuel samp path g0 x y tg = SplitRes.ok t) :
    ∀ n ∈ descendants t,
      (isLeaf n = true ∧ n.left_child = none ∧ n.right_child = none) ∨
        (isLeaf n = false ∧ n.left_child ≠ none ∧ n.right_child ≠ none) :=
  trainedInv_descendants t (attemptSplit_inv fuel samp path g0 x y tg t h)

/-- C8: `attempt_split` terminates: a committed split recurses only on two
strictly smaller nonempty partitions, so recursion depth is bounded by the
number of rows; with fuel exceeding that bound the fuelled model never runs
out (`SplitRes.out` is unreachable), on every input. -/
theorem attemptSplit_terminates (fuel : Nat) (samp : List Bool → List Nat)
    (path : List Bool) (g0 : NVal) (x : List (List ℚ)) (y : List ℚ)
    (tg : List (List ℚ)) (hfuel : x.length < fuel) :
    attemptSplit fuel samp path g0 x y tg ≠ SplitRes.out :=
  attemptSplit_no_out fuel samp path g0 x y tg hfuel

/-! ### Classification and prediction lemmas -/

theorem attemptSplit_wellTrained : ∀ (fuel : Nat) (samp : List Bool → List Nat)
    (path : List Bool) (g0 : NVal) (x : List (List ℚ)) (y : List ℚ) (tg : List (List ℚ))
    (t : PyNode),
    attemptSplit fuel samp path g0 x y tg = SplitRes.ok t → wellTrained t = true := by
  intro fuel
  induction fuel with
  | zero =>
    intro samp path g0 x y tg t h
    exact absurd h (by simp [attemptSplit])
  | succ n ih =>
    intro samp path g0 x y tg t h
    rw [attemptSplit] at h
    split at h
    · exact absurd h (by simp)
    · split at h
      · cases h
        rfl
      · split at h
        · exact absurd h (by simp)
        · split at h
          · cases h
            rfl
          · dsimp only at h
            split at h
            · split at h
              · cases h
                rfl
              · split at h
                · exact absurd h (by simp)
                · exact absurd h (by simp)
                · split at h
                  · exact absurd h (by simp)
                  · exact absurd h (by simp)
                  · cases h
                    rename_i xl lt2 hl xr rt2 hr
                    show wellTrained (internalNode _ _ _ _ _) = true
                    simp only [internalNode, wellTrained, Bool.and_eq_true]
                    exact ⟨ih _ _ _ _ _ _ _ hl, ih _ _ _ _ _ _ _ hr⟩
            · exact absurd h (by simp)

theorem sortNode_total : ∀ (t : PyNode), wellTrained t = true →
    ∀ row, ∃ c, sortNode t row = some c
  | .mk none none sf sv g (some c), _, row => ⟨c, by simp [sortNode]⟩
  | .mk (some l) (some r) (some sf) (some sv) g none, ht, row => by
    have hinv : wellTrained l = true ∧ wellTrained r = true := by
      simpa [wellTrained, Bool.and_eq_true] using ht
    by_cases hcmp : row.getD sf 0 ≤ sv
    · obtain ⟨c, hc⟩ := sortNode_total l hinv.1 row
      refine ⟨c, ?_⟩
      simp only [sortNode]
      rw [if_pos hcmp]
      exact hc
    · obtain ⟨c, hc⟩ := sortNode_total r hinv.2 row
      refine ⟨c, ?_⟩
      simp only [sortNode]
      rw [if_neg hcmp]
      exact hc
  | .mk none none sf sv g none, ht, row => by simp [wellTrained] at ht
  | .mk (some l) none sf sv g lab, ht, row => by simp [wellTrained] at ht
  | .mk none (some r) sf sv g lab, ht, row => by simp [wellTrained] at ht
  | .mk (some l) (some r) none sv g lab, ht, row => by simp [wellTrained] at ht
  | .mk (some l) (some r) (some sf) none g lab, ht, row => by simp [wellTrained] at ht
  | .mk (some l) (some r) (some sf) (some sv) g (some c), ht, row => by
    simp [wellTrained] at ht

theorem label_mem_leafLabels : ∀ (l r : Option PyNode) (sf : Option Nat) (sv : Option ℚ)
    (g : NVal) (c : ℚ), c ∈ leafLabels (.mk l r sf sv g (some c))
  | none, none, _, _, _, _ => by simp [leafLabels]
  | some _, none, _, _, _, _ => by simp [leafLabels]
  | none, some _, _, _, _, _ => by simp [leafLabels]
  | some _, some _, _, _, _, _ => by simp [leafLabels]

theorem mem_leafLabels_left : ∀ (lt : PyNode) (r : Option PyNode) (sf : Option Nat)
    (sv : Option ℚ) (g : NVal) (lab : Option ℚ) (c : ℚ), c ∈ leafLabels lt →
      c ∈ leafLabels (.mk (some lt) r sf sv g lab)
  | lt, none, _, _, _, lab, c, hc => by simp [leafLabels, hc]
  | lt, some rt, _, _, _, lab, c, hc => by simp [leafLabels, hc]

theorem mem_leafLabels_right : ∀ (l : Option PyNode) (rt : PyNode) (sf : Option Nat)
    (sv : Option ℚ) (g : NVal) (lab : Option ℚ) (c : ℚ), c ∈ leafLabels rt →
      c ∈ leafLabels (.mk l (some rt) sf sv g lab)
  | none, rt, _, _, _, lab, c, hc => by simp [leafLabels, hc]
  | some lt, rt, _, _, _, lab, c, hc => by simp [leafLabels, hc]

theorem sortNode_mem_leafLabels : ∀ (t : PyNode) (row : List ℚ) (c : ℚ),
    sortNode t row = some c → c ∈ leafLabels t
  | .mk l r sf sv g (some c2), row, c => by
    intro h
    simp [sortNode] at h
    exact h ▸ label_mem_leafLabels l r sf sv g c2
  | .mk (some lt) (some rt) (some sf) (some sv) g none, row, c => by
    intro h
    simp only [sortNode] at h
    by_cases hcmp : row.getD sf 0 ≤ sv
    · rw [if_pos hcmp] at h
      exact mem_leafLabels_left lt _ _ _ g none c (sortNode_mem_leafLabels lt row c h)
    · rw [if_neg hcmp] at h
      exact mem_leafLabels_right _ rt _ _ g none c (sortNode_mem_leafLabels rt row c h)
  | .mk (some lt) none (some sf) (some sv) g none, row, c => by
    intro h
    simp only [sortNode] at h
    by_cases hcmp : row.getD sf 0 ≤ sv
    · rw [if_pos hcmp] at h
      exact mem_leafLabels_left lt _ _ _ g none c (sortNode_mem_leafLabels lt row c h)
    · rw [if_neg hcmp] at h
      cases h
  | .mk none (some rt) (some sf) (some sv) g none, row, c => by
    intro h
    simp only [sortNode] at h
    by_cases hcmp : row.getD sf 0 ≤ sv
    · rw [if_pos hcmp] at h
      cases h
    · rw [if_neg hcmp] at h
      exact mem_leafLabels_right _ rt _ _ g none c (sortNode_mem_leafLabels rt row c h)
  | .mk none none (some sf) (some sv) g none, row, c => by
    intro h
    simp only [sortNode] at h
    by_cases hcmp : row.getD sf 0 ≤ sv
    · rw [if_pos hcmp] at h
      cases h
    · rw [if_neg hcmp] at h
      cases h
  | .mk l r none sv g none, row, c => by
    intro h
    simp [sortNode] at h
  | .mk l r (some sf) none g none, row, c => by
    intro h
    simp [sortNode] at h

/-- C6: for trees produced by `attempt_split` runs (each trained on labels
drawn from the fit labels), `predict` returns one label per input row, in
row order; entry `i` is the vote with the highest count among the trees'
predictions for row `i` (votes enumerated in tree-storage order), ties going
to the vote whose first occurrence in that enumeration is earliest; every
returned label is some tree's leaf label and hence among the labels seen
during fit. -/
theorem predict_majority_vote (trees : List PyNode) (rows : List (List ℚ)) (yFit : List ℚ)
    (hne : trees ≠ [])
    (htr : ∀ t ∈ trees, ∃ fuel samp path g0 x ys tg,
      attemptSplit fuel samp path g0 x ys tg = SplitRes.ok t ∧ ∀ c ∈ ys, c ∈ yFit) :
    ∃ res, predict trees rows = some res ∧ res.length = rows.length ∧
      ∀ i, i < rows.length →
        ∃ votes : List ℚ, votes.length = trees.length ∧
          (∀ k, k < trees.length →
            sortNode (trees.getD k default) (rows.getD i []) = some (votes.getD k 0)) ∧
          res.getD i 0 ∈ votes ∧
          (∀ c, votes.count c ≤ votes.count (res.getD i 0)) ∧
          (∀ c ∈ votes, c ≠ res.getD i 0 → votes.count (res.getD i 0) ≤ votes.count c →
            pos (res.getD i 0) votes < pos c votes) ∧
          (∃ t ∈ trees, res.getD i 0 ∈ leafLabels t) ∧ res.getD i 0 ∈ yFit := by
  have hwt : ∀ t ∈ trees, wellTrained t = true := by
    intro t ht
    obtain ⟨fuel, samp, path, g0, x, ys, tg, hok, _⟩ := htr t ht
    exact attemptSplit_wellTrained fuel samp path g0 x ys tg t hok
  have hcls : ∀ t ∈ trees, ∃ p, classify t rows = some p := by
    intro t ht
    exact optMap_of_forall_some (fun row _ => sortNode_total t (hwt t ht) row)
  obtain ⟨preds, hpreds⟩ := optMap_of_forall_some hcls
  obtain ⟨hplen, hpk⟩ := optMap_some hpreds
  match preds with
  | [] =>
    exact absurd (List.eq_nil_of_length_eq_zero hplen.symm) hne
  | p0 :: ptl =>
    refine ⟨(List.range rows.length).map (fun i =>
      match mostCommonOpt ((p0 :: ptl).map (fun p => p.getD i 0)) with
      | some mc => mc.1
      | none => 0), ?_, by simp, ?_⟩
    · simp only [predict, hpreds]
    · intro i hi
      set votes := (p0 :: ptl).map (fun p => p.getD i 0) with hvotes
      have hvne : votes ≠ [] := by simp [hvotes]
      obtain ⟨lab, cnt, hmc, hmem, hcnt, hmax, htie⟩ := mostCommonOpt_spec votes hvne
      have hres : ((List.range rows.length).map (fun i =>
          match mostCommonOpt ((p0 :: ptl).map (fun p => p.getD i 0)) with
          | some mc => mc.1
          | none => 0)).getD i 0 = lab := by
        rw [getD_range_map _ rows.length i hi]
        rw [← hvotes, hmc]
      rw [hres]
      have hvlen : votes.length = trees.length := by
        simp only [hvotes, List.length_map]
        exact hplen
      have hkvote : ∀ k, k < trees.length →
          sortNode (trees.getD k default) (rows.getD i []) = some (votes.getD k 0) := by
        intro k hk
        have hck := hpk k hk default []
        obtain ⟨hclen, hci⟩ := optMap_some hck
        have hvk : votes.getD k 0 = ((p0 :: ptl).getD k []).getD i 0 := by
          rw [hvotes]
          exact getD_map _ _ k (by rw [hplen]; exact hk) 0 []
        rw [hvk]
        exact hci i hi [] 0
      refine ⟨votes, hvlen, hkvote, hmem, fun c => hcnt ▸ hmax c, ?_, ?_, ?_⟩
      · intro c hc hne2 hge
        exact htie c hc hne2 (hcnt ▸ hge)
      · obtain ⟨k, hk, hkv⟩ := List.getElem_of_mem hmem
        have hk2 : k < trees.length := by rwa [hvlen] at hk
        have hkv2 : votes.getD k 0 = lab := by
          rw [List.getD_eq_getElem _ _ hk]
          exact hkv
        have hsort := hkvote k hk2
        rw [hkv2] at hsort
        have htree_mem : trees.getD k default ∈ trees := by
          rw [List.getD_eq_getElem _ _ hk2]
          exact List.getElem_mem hk2
        exact ⟨trees.getD k default, htree_mem, sortNode_mem_leafLabels _ _ _ hsort⟩
      · obtain ⟨k, hk, hkv⟩ := List.getElem_of_mem hmem
        have hk2 : k < trees.length := by rwa [hvlen] at hk
        have hkv2 : votes.getD k 0 = lab := by
          rw [List.getD_eq_getElem _ _ hk]
          exact hkv
        have hsort := hkvote k hk2
        rw [hkv2] at hsort
        have htree_mem : trees.getD k default ∈ trees := by
          rw [List.getD_eq_getElem _ _ hk2]
          exact List.getElem_mem hk2
        obtain ⟨fuel, samp, path, g0, x, ys, tg, hok, hsub⟩ := htr _ htree_mem
        exact hsub lab (attemptSplit_leafLabels fuel samp path g0 x ys tg _ hok lab
          (sortNode_mem_leafLabels _ _ _ hsort))

/-! ### `RandomForest.fit` lemmas -/

/-- C9 (amended): `fit` performs no validation at its entry point.  With
mismatched X/y row counts (a malformed input), all `n` trees are constructed
and the error only surfaces from the bootstrap resampling inside the worker
pool: the result is a training error carrying the `n` constructed trees,
never an entry-point error. -/
theorem fit_no_entry_validation (n : Nat) (oracle : Nat → List Nat)
    (samp : Nat → List Bool → List Nat) (fuel : Nat) (x : List (List ℚ)) (y : List ℚ)
    (hn : 1 ≤ n) (hmis : x.length ≠ y.length) :
    fitForest n oracle samp fuel x y = FitRes.trainError n ∧
      ∀ msg, fitForest n oracle samp fuel x y ≠ FitRes.entryError msg := by
  obtain ⟨m, rfl⟩ : ∃ m, n = m + 1 := ⟨n - 1, by omega⟩
  have hmain : fitForest (m + 1) oracle samp fuel x y = FitRes.trainError (m + 1) := by
    rw [fitForest, List.range_succ_eq_map]
    simp only [List.map_cons, List.foldr_cons]
    have hb : buildTree (oracle 0) fuel (samp 0) x y = SplitRes.err := by
      rw [buildTree, resample, if_neg hmis]
    rw [hb]
  refine ⟨hmain, ?_⟩
  intro msg hcon
  rw [hmain] at hcon
  cases hcon

/-- C9 counterexample: mismatched X/y row counts (1 row of X, 2 labels) do
not fail fast at the entry point: `fit` constructs all 30 trees and the
failure surfaces during pool training (`trainError 30`), not as an
entry-point error. -/
theorem fit_mismatched_rows_cex :
    fitForest 30 (fun _ => []) (fun _ _ => []) 1 [[1]] [1, 2] = FitRes.trainError 30 ∧
      ∀ msg, fitForest 30 (fun _ => []) (fun _ _ => []) 1 [[1]] [1, 2] ≠
        FitRes.entryError msg := by
  have hmain : fitForest 30 (fun _ => []) (fun _ _ => []) 1 [[1]] [1, 2] =
      FitRes.trainError 30 := by
    rw [fitForest, List.range_succ_eq_map]
    simp only [List.map_cons, List.foldr_cons]
    have hb : buildTree [] 1 (fun _ => []) [[1]] [1, 2] = SplitRes.err := by
      rw [buildTree, resample]
      norm_num
    rw [hb]
  refine ⟨hmain, ?_⟩
  intro msg hcon
  rw [hmain] at hcon
  cases hcon

theorem exTree_eval :
    attemptSplit 2 (fun _ => [0]) [] (some 1) [[1], [2]] [0, 1] [[1, 0], [0, 1]] =
      SplitRes.ok (internalNode 0 (3 / 2) (some 0)
        (leafNode (some 0) 0) (leafNode (some 0) 1)) := by
  norm_num [attemptSplit, mostCommonOpt, splitFeatureValue, optMap, gini, gList, splitsOf,
    sortv, sortRows, gScore, giniT1, giniT2, giniHalf, sumLeft, sumRight, sTotal, leftCount,
    rightCount, countQ, classesOf, colE, pairLe, nadd, nsub, nmul, ndiv, pyLt, pyMinFold,
    condB, maskIdx, applyMask, List.insertionSort, List.orderedInsert, Finset.sum_range_succ,
    List.range_succ, List.count_cons, List.findIdx_cons, leafNode, internalNode,
    List.dedup_cons_of_not_mem, List.dedup_cons_of_mem]

/-! ### Witnesses: each hypothesised claim theorem applied at a concrete input -/

theorem gini_returns_min_midpoint_witness :
    ([1, 2] : List ℚ).length = ([0, 1] : List ℚ).length ∧
      ([[1, 0], [0, 1]] : List (List ℚ)) = oneHot [0, 1] ∧ 2 ≤ ([1, 2] : List ℚ).length ∧
      ∃ j q, gini [1, 2] [0, 1] [[1, 0], [0, 1]] =
        some ((splitsOf [1, 2] [[1, 0], [0, 1]]).getD j 0, some q) := by
  have htg : ([[1, 0], [0, 1]] : List (List ℚ)) = oneHot [0, 1] := by
    norm_num [oneHot, oneHotRow, classesOf, List.insertionSort, List.orderedInsert,
      List.dedup_cons_of_not_mem, List.dedup_cons_of_mem]
  refine ⟨rfl, htg, by norm_num, ?_⟩
  obtain ⟨j, q, hq, _⟩ :=
    gini_returns_min_midpoint [1, 2] [0, 1] [[1, 0], [0, 1]] rfl htg (by norm_num)
  exact ⟨j, q, hq⟩

theorem gini_totals_aligned_witness :
    ([1, 2] : List ℚ).length = ([0, 1] : List ℚ).length ∧
      ([[1, 0], [0, 1]] : List (List ℚ)) = oneHot [0, 1] ∧ 0 < ([1, 2] : List ℚ).length - 1 ∧
      sumLeft [1, 2] [0, 1] [[1, 0], [0, 1]] 0 = (0 + 1 : ℚ) ∧
      (gScore [1, 2] [0, 1] [[1, 0], [0, 1]] 0).isSome := by
  have htg : ([[1, 0], [0, 1]] : List (List ℚ)) = oneHot [0, 1] := by
    norm_num [oneHot, oneHotRow, classesOf, List.insertionSort, List.orderedInsert,
      List.dedup_cons_of_not_mem, List.dedup_cons_of_mem]
  obtain ⟨h1, _, _, _, h5⟩ :=
    gini_totals_aligned [1, 2] [0, 1] [[1, 0], [0, 1]] rfl htg 0 (by norm_num)
  exact ⟨rfl, htg, by norm_num, h1, h5⟩

theorem gini_candidate_formula_witness :
    ([1, 2] : List ℚ).length = ([0, 1] : List ℚ).length ∧
      ([[1, 0], [0, 1]] : List (List ℚ)) = oneHot [0, 1] ∧ 0 < ([1, 2] : List ℚ).length - 1 ∧
      (∀ i, leftCount [1, 2] [0, 1] [[1, 0], [0, 1]] 0 i =
        ((cumsum (colList [1, 2] [0, 1] [[1, 0], [0, 1]] i)).dropLast).getD 0 0) ∧
      (∀ i, leftCount [1, 2] [0, 1] [[1, 0], [0, 1]] 0 i =
        specLeftCount [1, 2] [[1, 0], [0, 1]] 0 i) ∧
      (gScore [1, 2] [0, 1] [[1, 0], [0, 1]] 0).isSome := by
  have htg : ([[1, 0], [0, 1]] : List (List ℚ)) = oneHot [0, 1] := by
    norm_num [oneHot, oneHotRow, classesOf, List.insertionSort, List.orderedInsert,
      List.dedup_cons_of_not_mem, List.dedup_cons_of_mem]
  obtain ⟨h0, h1, _, _, _, h3⟩ :=
    gini_candidate_formula [1, 2] [0, 1] [[1, 0], [0, 1]] rfl htg 0 (by norm_num)
  exact ⟨rfl, htg, by norm_num, h0, h1, by rw [h3]; rfl⟩

theorem gini_zero_total_behaviour_witness :
    (∀ row ∈ ([[1, 0, 0], [1, 0, 0], [0, 1, 0], [0, 1, 0]] : List (List ℚ)),
      ∀ q ∈ row, 0 ≤ q) ∧
      1 ≤ (classesOf [0, 0, 1, 1]).length ∧
      (gini [1, 2, 3, 4] [0, 0, 1, 1] [[1, 0, 0], [1, 0, 0], [0, 1, 0], [0, 1, 0]]).isSome ∧
      gScore [1, 2, 3, 4] [0, 0, 1, 1] [[1, 0, 0], [1, 0, 0], [0, 1, 0], [0, 1, 0]] 0 =
        none := by
  have h01 : ∀ row ∈ ([[1, 0, 0], [1, 0, 0], [0, 1, 0], [0, 1, 0]] : List (List ℚ)),
      ∀ q ∈ row, 0 ≤ q := by
    intro row hrow q hq
    simp only [List.mem_cons, List.not_mem_nil, or_false] at hrow
    rcases hrow with rfl | rfl | rfl | rfl <;>
      (simp only [List.mem_cons, List.not_mem_nil, or_false] at hq) <;>
      (rcases hq with rfl | rfl | rfl <;> norm_num)
  have hnC : 1 ≤ (classesOf [0, 0, 1, 1]).length := by
    norm_num [classesOf, List.insertionSort, List.orderedInsert,
      List.dedup_cons_of_not_mem, List.dedup_cons_of_mem]
  obtain ⟨hsome, _, hzero⟩ := gini_zero_total_behaviour [1, 2, 3, 4] [0, 0, 1, 1]
    [[1, 0, 0], [1, 0, 0], [0, 1, 0], [0, 1, 0]] h01 hnC
  refine ⟨h01, hnC, hsome ?_, hzero 0 ?_⟩
  · norm_num [splitsOf, sortv, sortRows, pairLe, List.insertionSort, List.orderedInsert]
    simp
  · norm_num [sumLeft, leftCount, classesOf, colE, sortRows, pairLe, List.insertionSort,
      List.orderedInsert, List.dedup_cons_of_not_mem, List.dedup_cons_of_mem,
      Finset.sum_range_succ]

theorem attemptSplit_stop_condition_A_witness :
    ([5, 5] : List ℚ) ≠ [] ∧ ([5, 5] : List ℚ).toFinset.card = 1 ∧
      ∃ lab, attemptSplit (0 + 1) (fun _ => []) [] (some 1) [[1], [2]] [5, 5] [[1], [1]] =
        SplitRes.ok (leafNode (some 1) lab) ∧ lab ∈ ([5, 5] : List ℚ) := by
  have hcard : ([5, 5] : List ℚ).toFinset.card = 1 := by norm_num
  obtain ⟨lab, h1, _, _, _, hmem, _, _⟩ := attemptSplit_stop_condition_A 0 (fun _ => []) []
    (some 1) [[1], [2]] [5, 5] [[1], [1]] (by simp) (Or.inl hcard)
  exact ⟨by simp, hcard, lab, h1, hmem⟩

theorem attemptSplit_partition_witness :
    attemptSplit (1 + 1) (fun _ => [0]) [] (some 1) [[1], [2]] [0, 1] [[1, 0], [0, 1]] =
      SplitRes.ok (internalNode 0 (3 / 2) (some 0)
        (leafNode (some 0) 0) (leafNode (some 0) 1)) ∧
    (internalNode 0 (3 / 2) (some 0) (leafNode (some 0) 0)
        (leafNode (some 0) 1)).label = none ∧
      ∃ feature value splitG lt rt,
        internalNode 0 (3 / 2) (some 0) (leafNode (some 0) 0) (leafNode (some 0) 1) =
          internalNode feature value splitG lt rt ∧
        (([[1], [2]] : List (List ℚ)).filter
            (fun row => decide (row.getD feature 0 ≤ value))).length +
          (([[1], [2]] : List (List ℚ)).filter
            (fun row => decide (value < row.getD feature 0))).length = 2 := by
  refine ⟨exTree_eval, rfl, ?_⟩
  obtain ⟨feature, value, splitG, lt2, rt2, ht, _, _, _, _, hlen, _⟩ :=
    attemptSplit_partition 1 (fun _ => [0]) [] (some 1) [[1], [2]] [0, 1] [[1, 0], [0, 1]]
      _ exTree_eval rfl
  exact ⟨feature, value, splitG, lt2, rt2, ht, hlen⟩

theorem attemptSplit_leaf_xor_children_witness :
    attemptSplit 2 (fun _ => [0]) [] (some 1) [[1], [2]] [0, 1] [[1, 0], [0, 1]] =
      SplitRes.ok (internalNode 0 (3 / 2) (some 0)
        (leafNode (some 0) 0) (leafNode (some 0) 1)) ∧
      ∀ n ∈ descendants (internalNode 0 (3 / 2) (some 0)
          (leafNode (some 0) 0) (leafNode (some 0) 1)),
        (isLeaf n = true ∧ n.left_child = none ∧ n.right_child = none) ∨
          (isLeaf n = false ∧ n.left_child ≠ none ∧ n.right_child ≠ none) :=
  ⟨exTree_eval, attemptSplit_leaf_xor_children 2 (fun _ => [0]) [] (some 1) [[1], [2]]
    [0, 1] [[1, 0], [0, 1]] _ exTree_eval⟩

theorem attemptSplit_terminates_witness :
    ([[1], [2]] : List (List ℚ)).length < 3 ∧
      attemptSplit 3 (fun _ => [0]) [] (some 1) [[1], [2]] [0, 1] [[1, 0], [0, 1]] ≠
        SplitRes.out :=
  ⟨by norm_num, attemptSplit_terminates 3 (fun _ => [0]) [] (some 1) [[1], [2]] [0, 1]
    [[1, 0], [0, 1]] (by norm_num)⟩

theorem predict_majority_vote_witness :
    ([internalNode 0 (3 / 2) (some 0) (leafNode (some 0) 0) (leafNode (some 0) 1)] :
        List PyNode) ≠ [] ∧
      ∃ res, predict [internalNode 0 (3 / 2) (some 0) (leafNode (some 0) 0)
          (leafNode (some 0) 1)] [[0]] = some res ∧ res.length = 1 ∧
        res.getD 0 0 ∈ ([0, 1] : List ℚ) := by
  have htr : ∀ t ∈ ([internalNode 0 (3 / 2) (some 0) (leafNode (some 0) 0)
      (leafNode (some 0) 1)] : List PyNode),
      ∃ fuel samp path g0 x ys tg, attemptSplit fuel samp path g0 x ys tg =
        SplitRes.ok t ∧ ∀ c ∈ ys, c ∈ ([0, 1] : List ℚ) := by
    intro t ht
    simp only [List.mem_singleton] at ht
    subst ht
    exact ⟨2, fun _ => [0], [], some 1, [[1], [2]], [0, 1], [[1, 0], [0, 1]], exTree_eval,
      fun c hc => hc⟩
  obtain ⟨res, h1, h2, h3⟩ := predict_majority_vote [internalNode 0 (3 / 2) (some 0)
    (leafNode (some 0) 0) (leafNode (some 0) 1)] [[0]] [0, 1] (by simp) htr
  obtain ⟨votes, _, _, _, _, _, _, hfit⟩ := h3 0 (by norm_num)
  exact ⟨by simp, res, h1, by simpa using h2, hfit⟩

theorem fit_no_entry_validation_witness :
    1 ≤ 2 ∧ ([[1]] : List (List ℚ)).length ≠ ([1, 2] : List ℚ).length ∧
      fitForest 2 (fun _ => []) (fun _ _ => []) 1 [[1]] [1, 2] = FitRes.trainError 2 :=
  ⟨by norm_num, by norm_num,
    (fit_no_entry_validation 2 (fun _ => []) (fun _ _ => []) 1 [[1]] [1, 2] (by norm_num)
      (by norm_num)).1⟩

end RF
